import Mathlib

/-!
Verification of the helm-schema repository against its specification.

The development shallowly embeds the Go sources:
  * `pkg/parser` (the current parser with subchart support: value-path
    table, normalization, intermediate/structural path creation, the three
    scanner passes, chart recursion, and tree aggregation),
  * the pipeline-hints analyzer variant of the parser (tokenizer,
    `analyzePipelineTokens`, hint-based `inferTypeFromHints`),
  * `pkg/schema` (`Generate`, `addPropertyToSchema`, `getArrayItemType`,
    `GenerateChartSchemas`, `MergeSchemas`) and the CLI's `chartToSchema`.

Go strings are modeled as `List Char` (`GoStr`); all template content in
scope is ASCII, so byte indexing in the Go code coincides with character
indexing here.  Go maps (`map[string]*ValuePath` etc.) are modeled as
association lists with overwrite-on-insert (`setEntry`), looked up with
`getV`; Go map iteration order is represented by the list order, and
theorems about order independence quantify over permutations.  Functions
that the Go code writes as unbounded scans/recursions over strings or
directories take an explicit fuel argument so that they are structurally
recursive and computable by `decide`; fuel is always instantiated large
enough that it never runs out on the inputs considered.
-/

set_option maxHeartbeats 1600000

/-- Go strings, modeled as lists of characters. -/
abbrev GoStr := List Char

/-- Conversion from Lean string literals to the `GoStr` model. -/
def str (s : String) : GoStr := s.toList

/-- Characters trimmed by `strings.TrimRight(path, ".,;:!?")` in `normalizePath`. -/
def isPunct (c : Char) : Bool :=
  c = '.' || c = ',' || c = ';' || c = ':' || c = '!' || c = '?'

/-- Embedding of `strings.TrimRight(path, ".,;:!?")`: drop the maximal run of
trailing punctuation characters. -/
def trimTrail (l : GoStr) : GoStr :=
  (l.reverse.dropWhile isPunct).reverse

/-- State machine for `regexp.MustCompile('\[\d+\]').ReplaceAllString(path, "[]")`:
the second argument is `none` outside a bracket group and `some ds` after an
unmatched `[` with the (reversed) digits `ds` read so far.  A bracket holding
one or more digits and closed by `]` is replaced by the literal `[]`; anything
else is emitted unchanged. -/
def replIdxGo : GoStr → Option (List Char) → GoStr
  | [], none => []
  | [], some ds => '[' :: ds.reverse
  | c :: rest, none =>
      if c = '[' then replIdxGo rest (some [])
      else c :: replIdxGo rest none
  | c :: rest, some ds =>
      if c.isDigit then replIdxGo rest (some (c :: ds))
      else if c = ']' then '[' :: ']' :: replIdxGo rest none
      else if c = '[' then '[' :: ds.reverse ++ replIdxGo rest (some [])
      else '[' :: ds.reverse ++ (c :: replIdxGo rest none)

/-- Replacement of every decimal bracket index `[k]` by the marker `[]`. -/
def replaceIdx (l : GoStr) : GoStr := replIdxGo l none

/-- Embedding of `TemplateParser.normalizePath`: trim trailing punctuation,
then normalize `[k]` to `[]`. -/
def normalizePath (path : GoStr) : GoStr :=
  replaceIdx (trimTrail path)

/-- Embedding of `strings.Split(path, ".")` for the one-character separator. -/
def splitOnDot : GoStr → List GoStr
  | [] => [[]]
  | c :: rest =>
      let ss := splitOnDot rest
      if c = '.' then [] :: ss
      else (c :: ss.headD []) :: ss.tail

/-- Embedding of `strings.Join(parts, ".")`. -/
def joinDots : List GoStr → GoStr
  | [] => []
  | [x] => x
  | x :: xs => x ++ '.' :: joinDots xs

namespace parser

/-- Embedding of the parser's `ValuePath` struct.  The Go field `Type` is a
reserved word in Lean and is rendered as `Typ`; `Default any` (never assigned
by the scanners, only copied) is rendered as an `Option GoStr`. -/
structure ValuePath where
  Path : GoStr
  Typ : GoStr
  Required : Bool
  Default : Option GoStr
deriving DecidableEq

/-- The parser's `values map[string]*ValuePath`, as an association list. -/
abbrev Table := List (GoStr × ValuePath)

/-- Map lookup `tp.values[k]`. -/
def getV : Table → GoStr → Option ValuePath
  | [], _ => none
  | (k, v) :: t, q => if k = q then some v else getV t q

/-- Map store `m[k] = v`: overwrite the existing entry or append a new one. -/
def setEntry : Table → GoStr → ValuePath → Table
  | [], k, v => [(k, v)]
  | e :: t, k, v => if e.1 = k then (k, v) :: t else e :: setEntry t k v

@[simp] theorem getV_nil (q : GoStr) : getV [] q = none := rfl

theorem getV_cons (k : GoStr) (v : ValuePath) (t : Table) (q : GoStr) :
    getV ((k, v) :: t) q = if k = q then some v else getV t q := rfl

@[simp] theorem getV_setEntry_self (t : Table) (k : GoStr) (v : ValuePath) :
    getV (setEntry t k v) k = some v := by
  induction t with
  | nil => simp [setEntry, getV]
  | cons e t ih =>
    by_cases h : e.1 = k
    · simp [setEntry, h, getV]
    · simp [setEntry, h, getV, ih]

theorem getV_setEntry_ne (t : Table) (k : GoStr) (v : ValuePath) (q : GoStr)
    (h : k ≠ q) : getV (setEntry t k v) q = getV t q := by
  induction t with
  | nil => simp [setEntry, getV, h]
  | cons e t ih =>
    by_cases he : e.1 = k
    · cases e with
      | mk ek ev =>
        simp only at he
        subst he
        simp [setEntry, getV, h]
    · cases e with
      | mk ek ev =>
        simp only at he
        simp [setEntry, he, getV, ih]

/-- Embedding of `inferTypeFromHints` (current parser): array when the raw
path ends with the `[]` marker, otherwise unknown. -/
def inferTypeFromHints (path : GoStr) : GoStr :=
  if (str "[]").isSuffixOf path then str "array" else str "unknown"

/-- Single iteration of the loop in `addIntermediatePaths`: ensure the
intermediate path exists, promoting an `unknown` entry to the structural
`pathType` and leaving any other existing entry unchanged. -/
def addIntermediateStep (values : Table) (intermediatePath : GoStr) (pathType : GoStr) : Table :=
  match getV values intermediatePath with
  | some existing =>
      if existing.Typ = str "unknown" ∧ pathType ≠ str "unknown" then
        setEntry values intermediatePath { existing with Typ := pathType }
      else values
  | none =>
      setEntry values intermediatePath
        { Path := intermediatePath, Typ := pathType, Required := false, Default := none }

/-- Embedding of `addIntermediatePaths`: for `a.b.c` create `a` and `a.b`,
each as `object`, or as `array` when the segment before the split point ends
with the `[]` marker. -/
def addIntermediatePaths (values : Table) (path : GoStr) : Table :=
  let parts := splitOnDot path
  (List.range' 1 (parts.length - 1)).foldl
    (fun vs i =>
      let intermediatePath := joinDots (parts.take i)
      let pathType :=
        if (str "[]").isSuffixOf (parts.getD (i - 1) []) then str "array" else str "object"
      addIntermediateStep vs intermediatePath pathType)
    values

/-- Embedding of `addValuePathWithHints` (current parser): insert the leaf
under its normalized path if absent, then create/promote every intermediate
path. -/
def addValuePathWithHints (values : Table) (path : GoStr) : Table :=
  let normalizedPath := normalizePath path
  let withLeaf :=
    match getV values normalizedPath with
    | some _ => values
    | none =>
        setEntry values normalizedPath
          { Path := normalizedPath, Typ := inferTypeFromHints path,
            Required := false, Default := none }
  addIntermediatePaths withLeaf normalizedPath

end parser

/-! Facts about `replIdxGo`, `trimTrail` and `normalizePath`. -/

/-- Digit lists, as collected in the bracket state of `replIdxGo`. -/
def allDigits (l : List Char) : Prop := ∀ c ∈ l, c.isDigit = true

@[simp] theorem replIdxGo_nil_none : replIdxGo [] none = [] := rfl

@[simp] theorem replIdxGo_nil_some (ds : List Char) :
    replIdxGo [] (some ds) = '[' :: ds.reverse := rfl

theorem replIdxGo_none_open (rest : GoStr) :
    replIdxGo ('[' :: rest) none = replIdxGo rest (some []) := by
  simp [replIdxGo]

theorem replIdxGo_none_other (c : Char) (rest : GoStr) (h : c ≠ '[') :
    replIdxGo (c :: rest) none = c :: replIdxGo rest none := by
  simp [replIdxGo, h]

theorem replIdxGo_some_digit (c : Char) (rest : GoStr) (ds : List Char)
    (h : c.isDigit = true) :
    replIdxGo (c :: rest) (some ds) = replIdxGo rest (some (c :: ds)) := by
  simp [replIdxGo, h]

theorem replIdxGo_some_close (rest : GoStr) (ds : List Char) :
    replIdxGo (']' :: rest) (some ds) = '[' :: ']' :: replIdxGo rest none := by
  have h : (']' : Char).isDigit = false := by decide
  simp [replIdxGo, h]

theorem replIdxGo_some_open (rest : GoStr) (ds : List Char) :
    replIdxGo ('[' :: rest) (some ds) = '[' :: ds.reverse ++ replIdxGo rest (some []) := by
  have h : ('[' : Char).isDigit = false := by decide
  have h2 : ('[' : Char) ≠ ']' := by decide
  simp [replIdxGo, h, h2]

theorem replIdxGo_some_other (c : Char) (rest : GoStr) (ds : List Char)
    (h1 : c.isDigit = false) (h2 : c ≠ ']') (h3 : c ≠ '[') :
    replIdxGo (c :: rest) (some ds) = '[' :: ds.reverse ++ (c :: replIdxGo rest none) := by
  simp [replIdxGo, h1, h2, h3]

theorem allDigits_nil : allDigits [] := by intro c hc; simp at hc

theorem allDigits_cons (c : Char) (l : List Char) (hc : c.isDigit = true)
    (hl : allDigits l) : allDigits (c :: l) := by
  intro x hx
  rcases List.mem_cons.mp hx with h | h
  · subst h; exact hc
  · exact hl x h

theorem allDigits_reverse (l : List Char) (h : allDigits l) : allDigits l.reverse := by
  intro x hx
  exact h x (by simpa using hx)

theorem replIdxGo_digits (ds : List Char) (t : GoStr) (e : List Char)
    (h : allDigits ds) :
    replIdxGo (ds ++ t) (some e) = replIdxGo t (some (ds.reverse ++ e)) := by
  induction ds generalizing e with
  | nil => simp
  | cons d ds ih =>
    have hd : d.isDigit = true := h d (by simp)
    have hds : allDigits ds := fun c hc => h c (by simp [hc])
    rw [List.cons_append, replIdxGo_some_digit d (ds ++ t) e hd, ih _ hds]
    simp

theorem replIdxGo_digits_nil (ds e : List Char) (h : allDigits ds) :
    replIdxGo ds (some e) = '[' :: e.reverse ++ ds := by
  have := replIdxGo_digits ds [] e h
  rw [List.append_nil] at this
  rw [this, replIdxGo_nil_some]
  simp

theorem replIdxGo_some_shape (l : GoStr) (e : List Char) :
    ∃ t, replIdxGo l (some e) = '[' :: t := by
  induction l generalizing e with
  | nil => exact ⟨e.reverse, rfl⟩
  | cons c rest ih =>
    by_cases hd : c.isDigit
    · rw [replIdxGo_some_digit c rest e hd]; exact ih (c :: e)
    · by_cases hb : c = ']'
      · subst hb
        exact ⟨']' :: replIdxGo rest none, replIdxGo_some_close rest e⟩
      · by_cases ho : c = '['
        · subst ho
          exact ⟨e.reverse ++ replIdxGo rest (some []), replIdxGo_some_open rest e⟩
        · exact ⟨e.reverse ++ (c :: replIdxGo rest none),
            replIdxGo_some_other c rest e (by simpa using hd) hb ho⟩

theorem replIdxGo_none_ne_nil (l : GoStr) (h : l ≠ []) : replIdxGo l none ≠ [] := by
  match l with
  | c :: rest =>
    by_cases ho : c = '['
    · subst ho
      rw [replIdxGo_none_open]
      obtain ⟨t, ht⟩ := replIdxGo_some_shape rest ([] : List Char)
      simp [ht]
    · rw [replIdxGo_none_other c rest ho]
      simp

theorem replIdxGo_rescan (l : GoStr) :
    (replIdxGo (replIdxGo l none) none = replIdxGo l none) ∧
    (∀ e e', allDigits e → allDigits e' →
      replIdxGo (replIdxGo l (some e)) (some e') = '[' :: e'.reverse ++ replIdxGo l (some e)) ∧
    (∀ e, allDigits e → replIdxGo (replIdxGo l (some e)) none = replIdxGo l (some e)) := by
  induction l with
  | nil =>
    refine ⟨rfl, ?_, ?_⟩
    · intro e e' he he'
      rw [replIdxGo_nil_some, replIdxGo_some_open,
        replIdxGo_digits_nil e.reverse [] (allDigits_reverse e he)]
      simp
    · intro e he
      rw [replIdxGo_nil_some, replIdxGo_none_open,
        replIdxGo_digits_nil e.reverse [] (allDigits_reverse e he)]
      simp
  | cons c rest ih =>
    obtain ⟨ihP, ihQ, ihR⟩ := ih
    refine ⟨?_, ?_, ?_⟩
    · by_cases ho : c = '['
      · subst ho
        rw [replIdxGo_none_open]
        exact ihR [] allDigits_nil
      · rw [replIdxGo_none_other c rest ho, replIdxGo_none_other c _ ho, ihP]
    · intro e e' he he'
      by_cases hd : c.isDigit
      · rw [replIdxGo_some_digit c rest e hd]
        exact ihQ (c :: e) e' (allDigits_cons c e hd he) he'
      · by_cases hb : c = ']'
        · subst hb
          rw [replIdxGo_some_close rest e, replIdxGo_some_open, replIdxGo_some_close, ihP]
        · by_cases ho : c = '['
          · subst ho
            rw [replIdxGo_some_open rest e, List.cons_append, replIdxGo_some_open,
              replIdxGo_digits e.reverse _ [] (allDigits_reverse e he)]
            simp only [List.reverse_reverse, List.append_nil]
            rw [ihQ [] e allDigits_nil he]
            simp
          · rw [replIdxGo_some_other c rest e (by simpa using hd) hb ho, List.cons_append,
              replIdxGo_some_open,
              replIdxGo_digits e.reverse _ [] (allDigits_reverse e he)]
            simp only [List.reverse_reverse, List.append_nil]
            rw [replIdxGo_some_other c _ e (by simpa using hd) hb ho, ihP]
            simp
    · intro e he
      by_cases hd : c.isDigit
      · rw [replIdxGo_some_digit c rest e hd]
        exact ihR (c :: e) (allDigits_cons c e hd he)
      · by_cases hb : c = ']'
        · subst hb
          rw [replIdxGo_some_close rest e, replIdxGo_none_open, replIdxGo_some_close, ihP]
        · by_cases ho : c = '['
          · subst ho
            rw [replIdxGo_some_open rest e, List.cons_append, replIdxGo_none_open,
              replIdxGo_digits e.reverse _ [] (allDigits_reverse e he)]
            simp only [List.reverse_reverse, List.append_nil]
            exact ihQ [] e allDigits_nil he
          · rw [replIdxGo_some_other c rest e (by simpa using hd) hb ho, List.cons_append,
              replIdxGo_none_open,
              replIdxGo_digits e.reverse _ [] (allDigits_reverse e he)]
            simp only [List.reverse_reverse, List.append_nil]
            rw [replIdxGo_some_other c _ e (by simpa using hd) hb ho, ihP]
            simp

theorem replaceIdx_idem (l : GoStr) : replaceIdx (replaceIdx l) = replaceIdx l :=
  (replIdxGo_rescan l).1

/-- Strings with no trailing punctuation character, the shape produced by
`trimTrail`. -/
def noTrailPunct (l : GoStr) : Prop :=
  ∀ c, l.getLast? = some c → isPunct c = false

theorem dropWhile_head_false (p : Char → Bool) (l : List Char) (c : Char) (t : List Char)
    (h : List.dropWhile p l = c :: t) : p c = false := by
  induction l with
  | nil => simp at h
  | cons a l ih =>
    by_cases hp : p a
    · rw [List.dropWhile_cons_of_pos hp] at h
      exact ih h
    · rw [List.dropWhile_cons_of_neg hp] at h
      cases h
      simpa using hp

theorem getLast?_mem (l : GoStr) (c : Char) (h : l.getLast? = some c) : c ∈ l := by
  induction l with
  | nil => simp at h
  | cons a t ih =>
    match t with
    | [] =>
      simp only [List.getLast?_singleton, Option.some.injEq] at h
      simp [h]
    | b :: t' =>
      rw [List.getLast?_cons_cons] at h
      exact List.mem_cons_of_mem a (ih h)

theorem getLast?_cons_ne_nil (c : Char) (l : GoStr) (h : l ≠ []) :
    (c :: l).getLast? = l.getLast? := by
  have : (([c] : GoStr) ++ l).getLast? = l.getLast? := List.getLast?_append_of_ne_nil _ h
  simpa using this

theorem getLast?_cons_append (c0 : Char) (x y : GoStr) (h : y ≠ []) :
    (c0 :: (x ++ y)).getLast? = y.getLast? := by
  have hx : (c0 :: (x ++ y)) = (c0 :: x) ++ y := by simp
  rw [hx]
  exact List.getLast?_append_of_ne_nil _ h

theorem trimTrail_idem (l : GoStr) : trimTrail (trimTrail l) = trimTrail l := by
  unfold trimTrail
  rw [List.reverse_reverse, List.dropWhile_idempotent]

theorem trimTrail_noTrail (l : GoStr) : noTrailPunct (trimTrail l) := by
  intro c hc
  unfold trimTrail at hc
  rw [← List.head?_reverse, List.reverse_reverse] at hc
  match hd : List.dropWhile isPunct l.reverse with
  | [] => rw [hd] at hc; simp at hc
  | b :: t =>
    rw [hd] at hc
    simp only [List.head?_cons, Option.some.injEq] at hc
    subst hc
    exact dropWhile_head_false isPunct l.reverse b t hd

theorem trimTrail_eq_of_noTrail (l : GoStr) (h : noTrailPunct l) : trimTrail l = l := by
  unfold trimTrail
  match hr : l.reverse with
  | [] =>
    have : l = [] := by simpa using congrArg List.reverse hr
    simp [this]
  | c :: t =>
    have hc : l.getLast? = some c := by rw [← List.head?_reverse, hr]; rfl
    rw [List.dropWhile_cons_of_neg (by simp [h c hc]), ← hr, List.reverse_reverse]

theorem noTrailPunct_of_cons (c : Char) (l : GoStr) (h : noTrailPunct (c :: l))
    (hne : l ≠ []) : noTrailPunct l := by
  intro x hx
  exact h x (by rw [getLast?_cons_ne_nil c l hne]; exact hx)

theorem digit_not_punct (c : Char) (h : c.isDigit = true) : isPunct c = false := by
  cases hp : isPunct c
  · rfl
  · exfalso
    simp only [isPunct, Bool.or_eq_true, decide_eq_true_eq] at hp
    rcases hp with ((((h1 | h1) | h1) | h1) | h1) | h1 <;> subst h1 <;>
      exact absurd h (by decide)

theorem replIdxGo_noTrail (l : GoStr) :
    (noTrailPunct l → noTrailPunct (replIdxGo l none)) ∧
    (∀ e, allDigits e → noTrailPunct l → noTrailPunct (replIdxGo l (some e))) := by
  induction l with
  | nil =>
    constructor
    · intro _ c hc; simp at hc
    · intro e he _ c hc
      rw [replIdxGo_nil_some] at hc
      match hrev : e.reverse with
      | [] =>
        rw [hrev] at hc
        simp only [List.getLast?_singleton, Option.some.injEq] at hc
        subst hc; decide
      | b :: t =>
        rw [hrev, getLast?_cons_ne_nil '[' (b :: t) (by simp)] at hc
        have hmem : c ∈ b :: t := getLast?_mem (b :: t) c hc
        have hce : c ∈ e := by
          have : c ∈ e.reverse := hrev ▸ hmem
          simpa using this
        exact digit_not_punct c (he c hce)
  | cons a rest ih =>
    obtain ⟨ihN, ihS⟩ := ih
    by_cases hrest : rest = []
    · subst hrest
      constructor
      · intro h c hc
        by_cases ho : a = '['
        · subst ho
          rw [replIdxGo_none_open, replIdxGo_nil_some, List.reverse_nil] at hc
          simp only [List.getLast?_singleton, Option.some.injEq] at hc
          subst hc; decide
        · rw [replIdxGo_none_other a [] ho, replIdxGo_nil_none] at hc
          exact h c hc
      · intro e he h c hc
        by_cases hd : a.isDigit
        · rw [replIdxGo_some_digit a [] e hd, replIdxGo_nil_some, List.reverse_cons] at hc
          rw [getLast?_cons_append '[' e.reverse [a] (by simp)] at hc
          simp only [List.getLast?_singleton, Option.some.injEq] at hc
          subst hc
          exact digit_not_punct a hd
        · by_cases hb : a = ']'
          · subst hb
            rw [replIdxGo_some_close [] e, replIdxGo_nil_none] at hc
            have : ((['[', ']'] : GoStr)).getLast? = some ']' := rfl
            simp only [List.getLast?_cons_cons, List.getLast?_singleton,
              Option.some.injEq] at hc
            subst hc; decide
          · by_cases ho : a = '['
            · subst ho
              rw [replIdxGo_some_open [] e, replIdxGo_nil_some, List.reverse_nil] at hc
              simp only [List.cons_append] at hc
              rw [getLast?_cons_append '[' e.reverse ['['] (by simp)] at hc
              simp only [List.getLast?_singleton, Option.some.injEq] at hc
              subst hc; decide
            · rw [replIdxGo_some_other a [] e (by simpa using hd) hb ho,
                replIdxGo_nil_none] at hc
              simp only [List.cons_append] at hc
              rw [getLast?_cons_append '[' e.reverse [a] (by simp)] at hc
              simp only [List.getLast?_singleton, Option.some.injEq] at hc
              subst hc
              exact h a rfl
    · constructor
      · intro h
        have hr : noTrailPunct rest := noTrailPunct_of_cons a rest h hrest
        by_cases ho : a = '['
        · subst ho
          rw [replIdxGo_none_open]
          exact ihS [] allDigits_nil hr
        · rw [replIdxGo_none_other a rest ho]
          intro c hc
          rw [getLast?_cons_ne_nil a (replIdxGo rest none)
            (replIdxGo_none_ne_nil rest hrest)] at hc
          exact ihN hr c hc
      · intro e he h
        have hr : noTrailPunct rest := noTrailPunct_of_cons a rest h hrest
        by_cases hd : a.isDigit
        · rw [replIdxGo_some_digit a rest e hd]
          exact ihS (a :: e) (allDigits_cons a e hd he) hr
        · by_cases hb : a = ']'
          · subst hb
            rw [replIdxGo_some_close rest e]
            intro c hc
            rw [getLast?_cons_ne_nil '[' (']' :: replIdxGo rest none) (by simp),
              getLast?_cons_ne_nil ']' (replIdxGo rest none)
                (replIdxGo_none_ne_nil rest hrest)] at hc
            exact ihN hr c hc
          · by_cases ho : a = '['
            · subst ho
              rw [replIdxGo_some_open rest e]
              intro c hc
              obtain ⟨t, ht⟩ := replIdxGo_some_shape rest ([] : List Char)
              simp only [List.cons_append] at hc
              rw [getLast?_cons_append '[' e.reverse (replIdxGo rest (some []))
                (by simp [ht])] at hc
              exact ihS [] allDigits_nil hr c hc
            · rw [replIdxGo_some_other a rest e (by simpa using hd) hb ho]
              intro c hc
              simp only [List.cons_append] at hc
              rw [getLast?_cons_append '[' e.reverse (a :: replIdxGo rest none) (by simp),
                getLast?_cons_ne_nil a (replIdxGo rest none)
                  (replIdxGo_none_ne_nil rest hrest)] at hc
              exact ihN hr c hc

theorem replaceIdx_noTrail (l : GoStr) (h : noTrailPunct l) :
    noTrailPunct (replaceIdx l) :=
  (replIdxGo_noTrail l).1 h

theorem normalizePath_idem_aux (p : GoStr) :
    normalizePath (normalizePath p) = normalizePath p := by
  unfold normalizePath
  rw [trimTrail_eq_of_noTrail (replaceIdx (trimTrail p))
    (replaceIdx_noTrail (trimTrail p) (trimTrail_noTrail p))]
  exact replaceIdx_idem (trimTrail p)

/-! Facts about `splitOnDot` and `joinDots`. -/

@[simp] theorem joinDots_nil : joinDots [] = [] := rfl

@[simp] theorem joinDots_single (x : GoStr) : joinDots [x] = x := rfl

theorem joinDots_cons₂ (x y : GoStr) (ys : List GoStr) :
    joinDots (x :: y :: ys) = x ++ '.' :: joinDots (y :: ys) := rfl

theorem joinDots_cons_ne (x : GoStr) (xs : List GoStr) (h : xs ≠ []) :
    joinDots (x :: xs) = x ++ '.' :: joinDots xs := by
  match xs with
  | y :: ys => exact joinDots_cons₂ x y ys

theorem splitOnDot_ne_nil (l : GoStr) : splitOnDot l ≠ [] := by
  match l with
  | [] => simp [splitOnDot]
  | c :: rest =>
    by_cases h : c = '.'
    · simp [splitOnDot, h]
    · simp [splitOnDot, h]

theorem splitOnDot_cons_dot (rest : GoStr) :
    splitOnDot ('.' :: rest) = [] :: splitOnDot rest := by
  simp [splitOnDot]

theorem splitOnDot_cons_ne (c : Char) (rest : GoStr) (h : c ≠ '.') :
    splitOnDot (c :: rest) =
      (c :: (splitOnDot rest).headD []) :: (splitOnDot rest).tail := by
  simp [splitOnDot, h]

theorem splitOnDot_dotFree (l : GoStr) : ∀ s ∈ splitOnDot l, '.' ∉ s := by
  induction l with
  | nil =>
    intro s hs
    simp [splitOnDot] at hs
    simp [hs]
  | cons c rest ih =>
    obtain ⟨s₀, ss', hss⟩ : ∃ s₀ ss', splitOnDot rest = s₀ :: ss' := by
      match h : splitOnDot rest with
      | [] => exact absurd h (splitOnDot_ne_nil rest)
      | a :: t => exact ⟨a, t, rfl⟩
    by_cases h : c = '.'
    · subst h
      rw [splitOnDot_cons_dot]
      intro s hs
      rcases List.mem_cons.mp hs with h1 | h1
      · simp [h1]
      · exact ih s h1
    · rw [splitOnDot_cons_ne c rest h, hss]
      intro s hs
      simp only [List.headD_cons, List.tail_cons] at hs
      rcases List.mem_cons.mp hs with h1 | h1
      · subst h1
        intro hmem
        rcases List.mem_cons.mp hmem with h2 | h2
        · exact h h2.symm
        · exact ih s₀ (by rw [hss]; simp) h2
      · exact ih s (by rw [hss]; simp [h1])

theorem joinDots_splitOnDot (l : GoStr) : joinDots (splitOnDot l) = l := by
  induction l with
  | nil => rfl
  | cons c rest ih =>
    obtain ⟨s₀, ss', hss⟩ : ∃ s₀ ss', splitOnDot rest = s₀ :: ss' := by
      match h : splitOnDot rest with
      | [] => exact absurd h (splitOnDot_ne_nil rest)
      | a :: t => exact ⟨a, t, rfl⟩
    by_cases h : c = '.'
    · subst h
      rw [splitOnDot_cons_dot, joinDots_cons_ne [] (splitOnDot rest) (splitOnDot_ne_nil rest)]
      simp [ih]
    · rw [splitOnDot_cons_ne c rest h, hss]
      simp only [List.headD_cons, List.tail_cons]
      match ss' with
      | [] =>
        rw [joinDots_single]
        rw [hss, joinDots_single] at ih
        simp [ih]
      | s₁ :: ss'' =>
        rw [joinDots_cons_ne (c :: s₀) (s₁ :: ss'') (by simp)]
        rw [hss, joinDots_cons_ne s₀ (s₁ :: ss'') (by simp)] at ih
        simp [← ih]

theorem splitOnDot_dotFree_id (x : GoStr) (h : '.' ∉ x) : splitOnDot x = [x] := by
  induction x with
  | nil => rfl
  | cons c r ih =>
    have hc : c ≠ '.' := by
      intro hh
      exact h (by simp [hh])
    have hr : '.' ∉ r := by
      intro hh
      exact h (by simp [hh])
    rw [splitOnDot_cons_ne c r hc, ih hr]
    simp

theorem splitOnDot_append_dot (x t : GoStr) (h : '.' ∉ x) :
    splitOnDot (x ++ '.' :: t) = x :: splitOnDot t := by
  induction x with
  | nil => simpa using splitOnDot_cons_dot t
  | cons c x' ih =>
    have hc : c ≠ '.' := by
      intro hh
      exact h (by simp [hh])
    have hx : '.' ∉ x' := by
      intro hh
      exact h (by simp [hh])
    rw [List.cons_append, splitOnDot_cons_ne c (x' ++ '.' :: t) hc, ih hx]
    simp

theorem splitOnDot_joinDots (parts : List GoStr) (hne : parts ≠ [])
    (hdf : ∀ s ∈ parts, '.' ∉ s) : splitOnDot (joinDots parts) = parts := by
  induction parts with
  | nil => exact absurd rfl hne
  | cons x xs ih =>
    match xs with
    | [] => exact splitOnDot_dotFree_id x (hdf x (by simp))
    | y :: ys =>
      rw [joinDots_cons_ne x (y :: ys) (by simp),
        splitOnDot_append_dot x (joinDots (y :: ys)) (hdf x (by simp)),
        ih (by simp) (fun s hs => hdf s (by simp [hs]))]

/-! Facts about the `[]` array marker suffix. -/

/-- Abbreviation for `strings.HasSuffix(s, "[]")` as used by the parser. -/
def hasBr (l : GoStr) : Bool := (str "[]").isSuffixOf l

theorem hasBr_iff (l : GoStr) : hasBr l = true ↔ ∃ z, l = z ++ str "[]" := by
  rw [hasBr, List.isSuffixOf_iff_suffix]
  constructor
  · rintro ⟨t, ht⟩
    exact ⟨t, ht.symm⟩
  · rintro ⟨z, hz⟩
    exact ⟨z, hz.symm⟩

theorem hasBr_pair : hasBr (str "[]") = true := by decide

theorem hasBr_append (x y : GoStr) (h : hasBr y = true) : hasBr (x ++ y) = true := by
  obtain ⟨z, hz⟩ := (hasBr_iff y).mp h
  exact (hasBr_iff (x ++ y)).mpr ⟨x ++ z, by simp [hz]⟩

theorem hasBr_cons (c : Char) (m : GoStr) (h : hasBr m = true) : hasBr (c :: m) = true := by
  have := hasBr_append [c] m h
  simpa using this

theorem hasBr_cases (c : Char) (rest : GoStr) (h : hasBr (c :: rest) = true) :
    (c = '[' ∧ rest = [']']) ∨ hasBr rest = true := by
  obtain ⟨z, hz⟩ := (hasBr_iff (c :: rest)).mp h
  match z with
  | [] =>
    simp only [List.nil_append] at hz
    left
    have h1 : c = '[' := by
      have := congrArg (fun l => List.headD l ' ') hz
      simpa [str] using this
    have h2 : rest = [']'] := by
      have := congrArg List.tail hz
      simpa [str] using this
    exact ⟨h1, h2⟩
  | d :: z' =>
    right
    have : rest = z' ++ str "[]" := by
      have := congrArg List.tail hz
      simpa using this
    exact (hasBr_iff rest).mpr ⟨z', this⟩

theorem getLast?_hasBr (l : GoStr) (h : hasBr l = true) : l.getLast? = some ']' := by
  obtain ⟨z, hz⟩ := (hasBr_iff l).mp h
  rw [hz, List.getLast?_append_of_ne_nil _ (by simp [str])]
  rfl

theorem noTrailPunct_of_hasBr (l : GoStr) (h : hasBr l = true) : noTrailPunct l := by
  intro c hc
  rw [getLast?_hasBr l h] at hc
  cases hc
  decide

theorem trimTrail_hasBr (l : GoStr) (h : hasBr l = true) : trimTrail l = l :=
  trimTrail_eq_of_noTrail l (noTrailPunct_of_hasBr l h)

theorem replIdxGo_hasBr (l : GoStr) :
    (hasBr l = true → hasBr (replIdxGo l none) = true) ∧
    (∀ e, hasBr l = true → hasBr (replIdxGo l (some e)) = true) := by
  induction l with
  | nil =>
    constructor
    · intro h; exact absurd h (by decide)
    · intro e h; exact absurd h (by decide)
  | cons c rest ih =>
    obtain ⟨ihN, ihS⟩ := ih
    constructor
    · intro h
      rcases hasBr_cases c rest h with ⟨hc, hr⟩ | hbr
      · subst hc; subst hr
        decide
      · by_cases ho : c = '['
        · subst ho
          rw [replIdxGo_none_open]
          exact ihS [] hbr
        · rw [replIdxGo_none_other c rest ho]
          exact hasBr_cons c _ (ihN hbr)
    · intro e h
      rcases hasBr_cases c rest h with ⟨hc, hr⟩ | hbr
      · subst hc; subst hr
        rw [replIdxGo_some_open [']'] e, replIdxGo_some_close [] [], replIdxGo_nil_none]
        exact hasBr_append _ _ (by decide)
      · by_cases hd : c.isDigit
        · rw [replIdxGo_some_digit c rest e hd]
          exact ihS (c :: e) hbr
        · by_cases hb : c = ']'
          · subst hb
            rw [replIdxGo_some_close rest e]
            exact hasBr_cons _ _ (hasBr_cons _ _ (ihN hbr))
          · by_cases ho : c = '['
            · subst ho
              rw [replIdxGo_some_open rest e]
              exact hasBr_append _ _ (ihS [] hbr)
            · rw [replIdxGo_some_other c rest e (by simpa using hd) hb ho]
              exact hasBr_append _ _ (hasBr_cons c _ (ihN hbr))

theorem normalizePath_hasBr (p : GoStr) (h : hasBr p = true) :
    hasBr (normalizePath p) = true := by
  unfold normalizePath replaceIdx
  rw [trimTrail_hasBr p h]
  exact (replIdxGo_hasBr p).1 h

theorem hasBr_dot_cons (m : GoStr) (h : hasBr ('.' :: m) = true) : hasBr m = true := by
  rcases hasBr_cases '.' m h with ⟨h1, -⟩ | h1
  · exact absurd h1 (by decide)
  · exact h1

theorem hasBr_append_dot (y m : GoStr) : hasBr (y ++ '.' :: m) = hasBr m := by
  cases hm : hasBr m
  · cases hym : hasBr (y ++ '.' :: m)
    · rfl
    · exfalso
      have : hasBr m = true := by
        clear hm
        induction y with
        | nil => exact hasBr_dot_cons m (by simpa using hym)
        | cons c y' ih =>
          rw [List.cons_append] at hym
          rcases hasBr_cases c (y' ++ '.' :: m) hym with ⟨-, h2⟩ | h2
          · exfalso
            match y' with
            | [] => simp at h2
            | d :: y'' => simp at h2
          · exact ih h2
      rw [this] at hm
      exact Bool.noConfusion hm
  · rw [hasBr_append y ('.' :: m) (hasBr_cons '.' m hm)]

theorem joinDots_last_hasBr (xs : List GoStr) (x : GoStr) :
    hasBr (joinDots (xs ++ [x])) = hasBr x := by
  induction xs with
  | nil => simp
  | cons c xs' ih =>
    rw [List.cons_append, joinDots_cons_ne c (xs' ++ [x]) (by simp), hasBr_append_dot, ih]

theorem joinDots_append_ne (xs ys : List GoStr) (hx : xs ≠ []) (hy : ys ≠ []) :
    joinDots (xs ++ ys) = joinDots xs ++ '.' :: joinDots ys := by
  induction xs with
  | nil => exact absurd rfl hx
  | cons x xs' ih =>
    match xs' with
    | [] =>
      rw [List.cons_append, List.nil_append, joinDots_cons_ne x ys hy, joinDots_single]
    | w :: ws =>
      rw [List.cons_append, joinDots_cons_ne x ((w :: ws) ++ ys) (by simp),
        ih (by simp), joinDots_cons_ne x (w :: ws) (by simp)]
      simp

namespace parser

/-- Structural kind the parser's invariants expect at a path: `array` for a
path ending in the `[]` marker, `object` otherwise. -/
def expectedKind (q : GoStr) : GoStr :=
  if hasBr q then str "array" else str "object"

theorem expectedKind_ne_unknown (q : GoStr) : expectedKind q ≠ str "unknown" := by
  unfold expectedKind
  by_cases h : hasBr q
  · simp [h]; decide
  · simp [h]; decide

theorem expectedKind_structural (q : GoStr) :
    expectedKind q = str "object" ∨ expectedKind q = str "array" := by
  unfold expectedKind
  by_cases h : hasBr q
  · right; simp [h]
  · left; simp [h]

/-- An entry is present at `q` with exactly the structural kind the
intermediate-path logic assigns there. -/
def Structured (t : Table) (q : GoStr) : Prop :=
  ∃ w, getV t q = some w ∧ w.Typ = expectedKind q

/-- Every entry's kind is `unknown` or the structural kind expected at its
key; this is an invariant of all tables the parser builds. -/
def TypesOK (t : Table) : Prop :=
  ∀ k w, getV t k = some w → w.Typ = str "unknown" ∨ w.Typ = expectedKind k

/-- Prefix closure: every proper dotted prefix of a recorded path is present
and carries its expected structural kind. -/
def PrefixClosed (t : Table) : Prop :=
  ∀ p w, getV t p = some w → ∀ i, 1 ≤ i → i < (splitOnDot p).length →
    Structured t (joinDots ((splitOnDot p).take i))

/-- The conjunction of the table invariants maintained by recording. -/
def Inv (t : Table) : Prop := TypesOK t ∧ PrefixClosed t

/-- Every entry's `Path` field equals the key it is stored under. -/
def KeyPathInv (t : Table) : Prop :=
  ∀ k w, getV t k = some w → w.Path = k

theorem step_frame (t : Table) (q pt k : GoStr) (h : k ≠ q) :
    getV (addIntermediateStep t q pt) k = getV t k := by
  unfold addIntermediateStep
  cases hg : getV t q with
  | none => exact getV_setEntry_ne t q _ k (fun hh => h hh.symm)
  | some w =>
    by_cases hw : w.Typ = str "unknown" ∧ pt ≠ str "unknown"
    · dsimp only
      rw [if_pos hw]
      exact getV_setEntry_ne t q _ k (fun hh => h hh.symm)
    · dsimp only
      rw [if_neg hw]

theorem step_self_none (t : Table) (q pt : GoStr) (h : getV t q = none) :
    getV (addIntermediateStep t q pt) q =
      some { Path := q, Typ := pt, Required := false, Default := none } := by
  unfold addIntermediateStep
  rw [h]
  exact getV_setEntry_self t q _

theorem step_self_promote (t : Table) (q pt : GoStr) (w : ValuePath)
    (h : getV t q = some w) (hw : w.Typ = str "unknown") (hp : pt ≠ str "unknown") :
    getV (addIntermediateStep t q pt) q = some { w with Typ := pt } := by
  unfold addIntermediateStep
  rw [h]
  dsimp only
  rw [if_pos ⟨hw, hp⟩]
  exact getV_setEntry_self t q _

theorem step_self_keep (t : Table) (q pt : GoStr) (w : ValuePath)
    (h : getV t q = some w) (hw : ¬(w.Typ = str "unknown" ∧ pt ≠ str "unknown")) :
    addIntermediateStep t q pt = t := by
  unfold addIntermediateStep
  rw [h]
  dsimp only
  rw [if_neg hw]

theorem step_structured (t : Table) (q pt : GoStr) (hT : TypesOK t)
    (hpt : pt = expectedKind q) : Structured (addIntermediateStep t q pt) q := by
  cases hg : getV t q with
  | none =>
    exact ⟨_, step_self_none t q pt hg, hpt⟩
  | some w =>
    by_cases hw : w.Typ = str "unknown"
    · refine ⟨{ w with Typ := pt }, ?_, hpt⟩
      exact step_self_promote t q pt w hg hw (hpt ▸ expectedKind_ne_unknown q)
    · have hexp : w.Typ = expectedKind q := by
        rcases hT q w hg with h1 | h1
        · exact absurd h1 hw
        · exact h1
      rw [step_self_keep t q pt w hg (fun hh => hw hh.1)]
      exact ⟨w, hg, hexp⟩

theorem step_keeps_structured (t : Table) (q pt k : GoStr) (hs : Structured t k) :
    Structured (addIntermediateStep t q pt) k := by
  by_cases hk : k = q
  · subst hk
    obtain ⟨w, hw, hty⟩ := hs
    rw [step_self_keep t k pt w hw
      (fun hh => (hty ▸ expectedKind_ne_unknown k) hh.1)]
    exact ⟨w, hw, hty⟩
  · obtain ⟨w, hw, hty⟩ := hs
    exact ⟨w, (step_frame t q pt k hk) ▸ hw, hty⟩

theorem step_typesOK (t : Table) (q pt : GoStr) (hT : TypesOK t)
    (hpt : pt = expectedKind q) : TypesOK (addIntermediateStep t q pt) := by
  intro k w' hk
  by_cases hkq : k = q
  · subst hkq
    cases hg : getV t k with
    | none =>
      rw [step_self_none t k pt hg] at hk
      cases hk
      right
      exact hpt
    | some w =>
      by_cases hw : w.Typ = str "unknown"
      · rw [step_self_promote t k pt w hg hw (hpt ▸ expectedKind_ne_unknown k)] at hk
        cases hk
        right
        exact hpt
      · rw [step_self_keep t k pt w hg (fun hh => hw hh.1)] at hk
        exact hT k w' hk
  · rw [step_frame t q pt k hkq] at hk
    exact hT k w' hk

theorem step_evolution (t : Table) (q pt k : GoStr) (w : ValuePath)
    (hpt : pt = expectedKind q) (h : getV t k = some w) :
    ∃ w', getV (addIntermediateStep t q pt) k = some w' ∧
      (w' = w ∨ (w.Typ = str "unknown" ∧ w'.Path = w.Path ∧ w'.Required = w.Required ∧
        w'.Default = w.Default ∧ w'.Typ = expectedKind k)) := by
  by_cases hkq : k = q
  · subst hkq
    by_cases hw : w.Typ = str "unknown"
    · refine ⟨{ w with Typ := pt }, step_self_promote t k pt w h hw
        (hpt ▸ expectedKind_ne_unknown k), Or.inr ⟨hw, rfl, rfl, rfl, hpt⟩⟩
    · exact ⟨w, by rw [step_self_keep t k pt w h (fun hh => hw hh.1)]; exact h, Or.inl rfl⟩
  · exact ⟨w, by rw [step_frame t q pt k hkq]; exact h, Or.inl rfl⟩

theorem step_keyPath (t : Table) (q pt : GoStr) (hK : KeyPathInv t) :
    KeyPathInv (addIntermediateStep t q pt) := by
  intro k w' hk
  by_cases hkq : k = q
  · subst hkq
    cases hg : getV t k with
    | none =>
      rw [step_self_none t k pt hg] at hk
      cases hk
      rfl
    | some w =>
      by_cases hw : w.Typ = str "unknown"
      · by_cases hp : pt = str "unknown"
        · rw [step_self_keep t k pt w hg (fun hh => hh.2 hp)] at hk
          exact hK k w' hk
        · rw [step_self_promote t k pt w hg hw hp] at hk
          cases hk
          exact hK k w hg
      · rw [step_self_keep t k pt w hg (fun hh => hw hh.1)] at hk
        exact hK k w' hk
  · rw [step_frame t q pt k hkq] at hk
    exact hK k w' hk

end parser

namespace parser

/-- Fold underlying `addIntermediatePaths`, abstracted over the index list of
the Go `for` loop. -/
def aipFold (parts : List GoStr) (idx : List Nat) (t : Table) : Table :=
  idx.foldl (fun vs i =>
    let intermediatePath := joinDots (parts.take i)
    let pathType :=
      if (str "[]").isSuffixOf (parts.getD (i - 1) []) then str "array" else str "object"
    addIntermediateStep vs intermediatePath pathType) t

theorem addIntermediatePaths_eq (t : Table) (path : GoStr) :
    addIntermediatePaths t path =
      aipFold (splitOnDot path) (List.range' 1 ((splitOnDot path).length - 1)) t := rfl

/-- Structural kind chosen by the loop body at index `i`. -/
def pathTypeAt (parts : List GoStr) (i : Nat) : GoStr :=
  if hasBr (parts.getD (i - 1) []) then str "array" else str "object"

theorem aipFold_nil (parts : List GoStr) (t : Table) : aipFold parts [] t = t := rfl

theorem aipFold_cons (parts : List GoStr) (i : Nat) (idx : List Nat) (t : Table) :
    aipFold parts (i :: idx) t =
      aipFold parts idx
        (addIntermediateStep t (joinDots (parts.take i)) (pathTypeAt parts i)) := rfl

theorem pathTypeAt_eq_expected (parts : List GoStr)
    (i : Nat) (h1 : 1 ≤ i) (h2 : i < parts.length) :
    pathTypeAt parts i = expectedKind (joinDots (parts.take i)) := by
  have hx : parts[i-1]? = some (parts.getD (i - 1) []) := by
    have hlt : i - 1 < parts.length := by omega
    rw [List.getElem?_eq_getElem hlt, List.getD_eq_getElem?_getD,
      List.getElem?_eq_getElem hlt]
    rfl
  have htake : parts.take i = parts.take (i - 1) ++ [parts.getD (i - 1) []] := by
    have hi : i = (i - 1) + 1 := by omega
    rw [hi, List.take_succ, hx]
    rfl
  unfold pathTypeAt expectedKind
  rw [htake, joinDots_last_hasBr]

theorem aipFold_spec (parts : List GoStr) (_hdf : ∀ s ∈ parts, '.' ∉ s) :
    ∀ (idx : List Nat) (t : Table), (∀ i ∈ idx, 1 ≤ i ∧ i < parts.length) → TypesOK t →
    TypesOK (aipFold parts idx t) ∧
    (∀ k, (∀ i ∈ idx, k ≠ joinDots (parts.take i)) →
      getV (aipFold parts idx t) k = getV t k) ∧
    (∀ k, Structured t k → Structured (aipFold parts idx t) k) ∧
    (∀ i ∈ idx, Structured (aipFold parts idx t) (joinDots (parts.take i))) ∧
    (∀ k w, getV t k = some w → ∃ w', getV (aipFold parts idx t) k = some w' ∧
      (w' = w ∨ (w.Typ = str "unknown" ∧ w'.Path = w.Path ∧ w'.Required = w.Required ∧
        w'.Default = w.Default ∧ w'.Typ = expectedKind k))) ∧
    (∀ k w', getV (aipFold parts idx t) k = some w' → getV t k = none →
      ∃ i ∈ idx, k = joinDots (parts.take i)) := by
  intro idx
  induction idx with
  | nil =>
    intro t _ hT
    refine ⟨hT, fun k _ => rfl, fun k hs => hs, ?_, ?_, ?_⟩
    · intro i hi; simp at hi
    · intro k w hw; exact ⟨w, hw, Or.inl rfl⟩
    · intro k w' hw' h0
      rw [aipFold_nil] at hw'
      rw [hw'] at h0
      exact Option.noConfusion h0
  | cons i idx ih =>
    intro t hb hT
    have hi : 1 ≤ i ∧ i < parts.length := hb i (List.mem_cons_self i idx)
    have hpt : pathTypeAt parts i = expectedKind (joinDots (parts.take i)) :=
      pathTypeAt_eq_expected parts i hi.1 hi.2
    have hT1 : TypesOK (addIntermediateStep t (joinDots (parts.take i)) (pathTypeAt parts i)) :=
      step_typesOK t _ _ hT hpt
    obtain ⟨s1, s2, s3, s4, s5, s6⟩ :=
      ih (addIntermediateStep t (joinDots (parts.take i)) (pathTypeAt parts i))
        (fun j hj => hb j (List.mem_cons_of_mem i hj)) hT1
    rw [aipFold_cons]
    refine ⟨s1, ?_, ?_, ?_, ?_, ?_⟩
    · intro k hk
      rw [s2 k (fun j hj => hk j (List.mem_cons_of_mem i hj))]
      exact step_frame t _ _ k (hk i (List.mem_cons_self i idx))
    · intro k hs
      exact s3 k (step_keeps_structured t _ _ k hs)
    · intro j hj
      rcases List.mem_cons.mp hj with h1 | h1
      · subst h1
        exact s3 _ (step_structured t _ _ hT hpt)
      · exact s4 j h1
    · intro k w hw
      obtain ⟨w₁, hw₁, hc₁⟩ := step_evolution t (joinDots (parts.take i)) _ k w hpt hw
      obtain ⟨w', hw', hc'⟩ := s5 k w₁ hw₁
      refine ⟨w', hw', ?_⟩
      rcases hc₁ with h1 | ⟨hu, hp, hr, hd, hty⟩
      · subst h1
        exact hc'
      · rcases hc' with h2 | ⟨hu2, hp2, hr2, hd2, hty2⟩
        · subst h2
          exact Or.inr ⟨hu, hp, hr, hd, hty⟩
        · exact absurd (hty ▸ hu2) (expectedKind_ne_unknown k)
    · intro k w' hw' h0
      by_cases hkq : k = joinDots (parts.take i)
      · exact ⟨i, List.mem_cons_self i idx, hkq⟩
      · have h1 : getV (addIntermediateStep t (joinDots (parts.take i)) (pathTypeAt parts i)) k = none := by
          rw [step_frame t _ _ k hkq]
          exact h0
        obtain ⟨j, hj, hjq⟩ := s6 k w' hw' h1
        exact ⟨j, List.mem_cons_of_mem i hj, hjq⟩

theorem aipFold_keyPath (parts : List GoStr) (idx : List Nat) :
    ∀ t : Table, KeyPathInv t → KeyPathInv (aipFold parts idx t) := by
  induction idx with
  | nil => intro t h; exact h
  | cons i idx ih =>
    intro t h
    rw [aipFold_cons]
    exact ih _ (step_keyPath t _ _ h)

end parser

theorem take_ne_nil' (l : List GoStr) (i : Nat) (h1 : 1 ≤ i) (hne : l ≠ []) :
    l.take i ≠ [] := by
  cases l with
  | nil => exact absurd rfl hne
  | cons a t =>
    cases i with
    | zero => omega
    | succ j => simp

theorem joinDots_take_ne (parts : List GoStr) (i : Nat) (h1 : 1 ≤ i)
    (h2 : i < parts.length) : joinDots (parts.take i) ≠ joinDots parts := by
  have hne : parts ≠ [] := by
    intro hh
    rw [hh] at h2
    simp at h2
  have hsplit : parts = parts.take i ++ parts.drop i := (List.take_append_drop i parts).symm
  have hdrop : parts.drop i ≠ [] := by
    rw [ne_eq, List.drop_eq_nil_iff]
    omega
  have hjoin : joinDots parts = joinDots (parts.take i) ++ '.' :: joinDots (parts.drop i) := by
    conv_lhs => rw [hsplit]
    exact joinDots_append_ne _ _ (take_ne_nil' parts i h1 hne) hdrop
  intro heq
  have hlen := congrArg List.length heq
  rw [hjoin] at hlen
  simp at hlen

namespace parser

theorem aipFold_frame (parts : List GoStr) (idx : List Nat) :
    ∀ (t : Table) (k : GoStr), (∀ i ∈ idx, k ≠ joinDots (parts.take i)) →
    getV (aipFold parts idx t) k = getV t k := by
  induction idx with
  | nil => intro t k _; rfl
  | cons i idx ih =>
    intro t k hk
    rw [aipFold_cons, ih _ k (fun j hj => hk j (List.mem_cons_of_mem i hj))]
    exact step_frame t _ _ k (hk i (List.mem_cons_self i idx))

theorem aipFold_evolution (parts : List GoStr) (idx : List Nat) :
    ∀ (t : Table), (∀ i ∈ idx, 1 ≤ i ∧ i < parts.length) →
    ∀ k w, getV t k = some w → ∃ w', getV (aipFold parts idx t) k = some w' ∧
      (w' = w ∨ (w.Typ = str "unknown" ∧ w'.Path = w.Path ∧ w'.Required = w.Required ∧
        w'.Default = w.Default ∧ w'.Typ = expectedKind k)) := by
  induction idx with
  | nil =>
    intro t _ k w hw
    exact ⟨w, hw, Or.inl rfl⟩
  | cons i idx ih =>
    intro t hb k w hw
    have hi : 1 ≤ i ∧ i < parts.length := hb i (List.mem_cons_self i idx)
    have hpt : pathTypeAt parts i = expectedKind (joinDots (parts.take i)) :=
      pathTypeAt_eq_expected parts i hi.1 hi.2
    obtain ⟨w₁, hw₁, hc₁⟩ := step_evolution t (joinDots (parts.take i)) _ k w hpt hw
    obtain ⟨w', hw', hc'⟩ :=
      ih _ (fun j hj => hb j (List.mem_cons_of_mem i hj)) k w₁ hw₁
    rw [aipFold_cons]
    refine ⟨w', hw', ?_⟩
    rcases hc₁ with h1 | ⟨hu, hp, hr, hd, hty⟩
    · subst h1
      exact hc'
    · rcases hc' with h2 | ⟨hu2, hp2, hr2, hd2, hty2⟩
      · subst h2
        exact Or.inr ⟨hu, hp, hr, hd, hty⟩
      · exact absurd (hty ▸ hu2) (expectedKind_ne_unknown k)

theorem aip_inv_core (np : GoStr) (t t1 : Table)
    (hT1 : TypesOK t1)
    (hkeep : ∀ q, Structured t q → Structured t1 q)
    (hnew : ∀ k w, getV t1 k = some w → getV t k = none → k = np)
    (hP : PrefixClosed t) :
    Inv (aipFold (splitOnDot np) (List.range' 1 ((splitOnDot np).length - 1)) t1) := by
  have hlen : 1 ≤ (splitOnDot np).length := by
    have := splitOnDot_ne_nil np
    cases h : splitOnDot np with
    | nil => exact absurd h this
    | cons a l => simp [h]
  have hbnd : ∀ i ∈ List.range' 1 ((splitOnDot np).length - 1),
      1 ≤ i ∧ i < (splitOnDot np).length := by
    intro i hi
    rw [List.mem_range'_1] at hi
    omega
  obtain ⟨s1, s2, s3, s4, s5, s6⟩ :=
    aipFold_spec (splitOnDot np) (splitOnDot_dotFree np) _ t1 hbnd hT1
  refine ⟨s1, ?_⟩
  intro p' w' hw' j hj1 hj2
  cases hq1 : getV t1 p' with
  | none =>
    obtain ⟨i, hiidx, hieq⟩ := s6 p' w' hw' hq1
    have hib := hbnd i hiidx
    have hsub : ∀ s ∈ (splitOnDot np).take i, '.' ∉ s := by
      intro s hs
      exact splitOnDot_dotFree np s (List.take_subset i (splitOnDot np) hs)
    have hps : splitOnDot p' = (splitOnDot np).take i := by
      rw [hieq]
      exact splitOnDot_joinDots _ (take_ne_nil' _ i hib.1 (splitOnDot_ne_nil np)) hsub
    rw [hps] at hj2
    rw [List.length_take] at hj2
    have hji : j < i := by omega
    have hjlen : j < (splitOnDot np).length := by omega
    have htt : (splitOnDot p').take j = (splitOnDot np).take j := by
      rw [hps, List.take_take, min_eq_left (by omega)]
    rw [htt]
    exact s4 j (by rw [List.mem_range'_1]; omega)
  | some w1 =>
    cases hq0 : getV t p' with
    | some w0 =>
      exact s3 _ (hkeep _ (hP p' w0 hq0 j hj1 hj2))
    | none =>
      have hpnp : p' = np := hnew p' w1 hq1 hq0
      subst hpnp
      exact s4 j (by rw [List.mem_range'_1]; omega)

end parser

namespace parser

theorem avp_eq_present (t : Table) (p : GoStr) (v : ValuePath)
    (h : getV t (normalizePath p) = some v) :
    addValuePathWithHints t p = addIntermediatePaths t (normalizePath p) := by
  unfold addValuePathWithHints
  simp only [h]

theorem avp_eq_absent (t : Table) (p : GoStr)
    (h : getV t (normalizePath p) = none) :
    addValuePathWithHints t p =
      addIntermediatePaths
        (setEntry t (normalizePath p)
          { Path := normalizePath p, Typ := inferTypeFromHints p,
            Required := false, Default := none })
        (normalizePath p) := by
  unfold addValuePathWithHints
  simp only [h]

theorem avp_inv (t : Table) (p : GoStr) (h : Inv t) :
    Inv (addValuePathWithHints t p) := by
  obtain ⟨hT, hP⟩ := h
  cases hg : getV t (normalizePath p) with
  | some v =>
    rw [avp_eq_present t p v hg, addIntermediatePaths_eq]
    refine aip_inv_core (normalizePath p) t t hT (fun q hs => hs) ?_ hP
    intro k w hw h0
    rw [hw] at h0
    exact Option.noConfusion h0
  | none =>
    rw [avp_eq_absent t p hg, addIntermediatePaths_eq]
    refine aip_inv_core (normalizePath p) t _ ?_ ?_ ?_ hP
    · intro k w hk
      by_cases hkq : k = normalizePath p
      · subst hkq
        rw [getV_setEntry_self] at hk
        cases hk
        show inferTypeFromHints p = str "unknown" ∨
          inferTypeFromHints p = expectedKind (normalizePath p)
        unfold inferTypeFromHints
        by_cases hbp : hasBr p
        · right
          rw [if_pos (by exact hbp)]
          unfold expectedKind
          rw [if_pos (normalizePath_hasBr p hbp)]
        · left
          rw [if_neg (by exact hbp)]
      · rw [getV_setEntry_ne t _ _ k (fun hh => hkq hh.symm)] at hk
        exact hT k w hk
    · intro q hs
      obtain ⟨w, hw, hty⟩ := hs
      by_cases hq : q = normalizePath p
      · subst hq
        rw [hw] at hg
        exact Option.noConfusion hg
      · exact ⟨w, by rw [getV_setEntry_ne t _ _ q (fun hh => hq hh.symm)]; exact hw, hty⟩
    · intro k w hk h0
      by_cases hkq : k = normalizePath p
      · exact hkq
      · rw [getV_setEntry_ne t _ _ k (fun hh => hkq hh.symm), h0] at hk
        exact Option.noConfusion hk

theorem avp_self (t : Table) (p : GoStr) (v : ValuePath)
    (h : getV t (normalizePath p) = some v) :
    getV (addValuePathWithHints t p) (normalizePath p) = some v := by
  rw [avp_eq_present t p v h, addIntermediatePaths_eq]
  have hlen : 1 ≤ (splitOnDot (normalizePath p)).length := by
    cases hs : splitOnDot (normalizePath p) with
    | nil => exact absurd hs (splitOnDot_ne_nil _)
    | cons a l => simp
  rw [aipFold_frame]
  · exact h
  · intro i hi
    rw [List.mem_range'_1] at hi
    intro heq
    have := joinDots_take_ne (splitOnDot (normalizePath p)) i hi.1 (by omega)
    rw [joinDots_splitOnDot] at this
    exact this heq.symm

theorem avp_evolution (t : Table) (p q : GoStr) (w : ValuePath)
    (h : getV t q = some w) :
    ∃ w', getV (addValuePathWithHints t p) q = some w' ∧
      (w' = w ∨ (w.Typ = str "unknown" ∧ w'.Path = w.Path ∧ w'.Required = w.Required ∧
        w'.Default = w.Default ∧ (w'.Typ = str "object" ∨ w'.Typ = str "array"))) := by
  have hbnd : ∀ i ∈ List.range' 1 ((splitOnDot (normalizePath p)).length - 1),
      1 ≤ i ∧ i < (splitOnDot (normalizePath p)).length := by
    intro i hi
    rw [List.mem_range'_1] at hi
    have hlen : 1 ≤ (splitOnDot (normalizePath p)).length := by
      cases hs : splitOnDot (normalizePath p) with
      | nil => exact absurd hs (splitOnDot_ne_nil _)
      | cons a l => simp
    omega
  have main : ∀ t1 : Table, getV t1 q = some w →
      ∃ w', getV (aipFold (splitOnDot (normalizePath p))
          (List.range' 1 ((splitOnDot (normalizePath p)).length - 1)) t1) q = some w' ∧
        (w' = w ∨ (w.Typ = str "unknown" ∧ w'.Path = w.Path ∧ w'.Required = w.Required ∧
          w'.Default = w.Default ∧ (w'.Typ = str "object" ∨ w'.Typ = str "array"))) := by
    intro t1 h1
    obtain ⟨w', hw', hc⟩ := aipFold_evolution (splitOnDot (normalizePath p)) _ t1 hbnd q w h1
    refine ⟨w', hw', ?_⟩
    rcases hc with h2 | ⟨hu, hp2, hr, hd, hty⟩
    · exact Or.inl h2
    · exact Or.inr ⟨hu, hp2, hr, hd, hty ▸ expectedKind_structural q⟩
  cases hg : getV t (normalizePath p) with
  | some v =>
    rw [avp_eq_present t p v hg, addIntermediatePaths_eq]
    exact main t h
  | none =>
    rw [avp_eq_absent t p hg, addIntermediatePaths_eq]
    refine main _ ?_
    have hq : normalizePath p ≠ q := by
      intro hh
      rw [hh, h] at hg
      exact Option.noConfusion hg
    rw [getV_setEntry_ne t _ _ q hq]
    exact h

theorem avp_keyPath (t : Table) (p : GoStr) (h : KeyPathInv t) :
    KeyPathInv (addValuePathWithHints t p) := by
  cases hg : getV t (normalizePath p) with
  | some v =>
    rw [avp_eq_present t p v hg, addIntermediatePaths_eq]
    exact aipFold_keyPath _ _ t h
  | none =>
    rw [avp_eq_absent t p hg, addIntermediatePaths_eq]
    refine aipFold_keyPath _ _ _ ?_
    intro k w hk
    by_cases hkq : k = normalizePath p
    · subst hkq
      rw [getV_setEntry_self] at hk
      cases hk
      rfl
    · rw [getV_setEntry_ne t _ _ k (fun hh => hkq hh.symm)] at hk
      exact h k w hk

end parser

namespace parser

/-- Table obtained from the empty per-bundle table by a sequence of
`addValuePathWithHints` recording operations. -/
def applyOps (ops : List GoStr) : Table :=
  ops.foldl addValuePathWithHints []

theorem inv_empty : Inv ([] : Table) := by
  constructor
  · intro k w hw
    exact Option.noConfusion hw
  · intro p w hw
    exact Option.noConfusion hw

theorem applyOps_inv (ops : List GoStr) : Inv (applyOps ops) := by
  have main : ∀ (l : List GoStr) (t : Table), Inv t → Inv (l.foldl addValuePathWithHints t) := by
    intro l
    induction l with
    | nil => intro t h; exact h
    | cons p l ih =>
      intro t h
      exact ih _ (avp_inv t p h)
  exact main ops [] inv_empty

theorem applyOps_keyPath (ops : List GoStr) : KeyPathInv (applyOps ops) := by
  have main : ∀ (l : List GoStr) (t : Table),
      KeyPathInv t → KeyPathInv (l.foldl addValuePathWithHints t) := by
    intro l
    induction l with
    | nil => intro t h; exact h
    | cons p l ih =>
      intro t h
      exact ih _ (avp_keyPath t p h)
  refine main ops [] ?_
  intro k w hw
  exact Option.noConfusion hw

end parser

/-- Claim C1: after any sequence of `addValuePathWithHints` recording
operations on one bundle's table, every recorded path `p` with at least one
dot has all of its proper dot-separated prefixes present in the table, each
classified structurally: `array` when the prefix's final segment carries the
`[]` marker, `object` otherwise — never scalar/unknown and never absent. -/
theorem C1_prefix_closure (ops : List GoStr) (p : GoStr) (w : parser.ValuePath)
    (hrec : parser.getV (parser.applyOps ops) p = some w)
    (_hdot : '.' ∈ p)
    (i : Nat) (h1 : 1 ≤ i) (h2 : i < (splitOnDot p).length) :
    ∃ w', parser.getV (parser.applyOps ops) (joinDots ((splitOnDot p).take i)) = some w' ∧
      w'.Typ = (if hasBr ((splitOnDot p).getD (i - 1) []) then str "array" else str "object") ∧
      (w'.Typ = str "object" ∨ w'.Typ = str "array") ∧ w'.Typ ≠ str "unknown" := by
  obtain ⟨hT, hP⟩ := parser.applyOps_inv ops
  obtain ⟨w', hw', hty⟩ := hP p w hrec i h1 h2
  have hseg : parser.pathTypeAt (splitOnDot p) i =
      parser.expectedKind (joinDots ((splitOnDot p).take i)) :=
    parser.pathTypeAt_eq_expected (splitOnDot p) i h1 h2
  refine ⟨w', hw', ?_, ?_, ?_⟩
  · rw [hty, ← hseg]
    rfl
  · rw [hty]
    exact parser.expectedKind_structural _
  · rw [hty]
    exact parser.expectedKind_ne_unknown _

/-- Witness for C1 at a concrete recording: after recording `a.b[].c`, the
proper prefix `a.b[]` is present and classified `array`. -/
theorem C1_prefix_closure_witness :
    ∃ w', parser.getV (parser.applyOps [str "a.b[].c"])
        (joinDots ((splitOnDot (str "a.b[].c")).take 2)) = some w' ∧
      w'.Typ = (if hasBr ((splitOnDot (str "a.b[].c")).getD (2 - 1) [])
        then str "array" else str "object") ∧
      (w'.Typ = str "object" ∨ w'.Typ = str "array") ∧ w'.Typ ≠ str "unknown" :=
  C1_prefix_closure [str "a.b[].c"] (str "a.b[].c")
    { Path := str "a.b[].c", Typ := str "unknown", Required := false, Default := none }
    (by decide) (by decide) 2 (by decide) (by decide)

/-- Claim C7: path normalization (trim trailing punctuation, then collapse
decimal bracket indices to `[]`) is idempotent:
`normalizePath (normalizePath p) = normalizePath p` for every input. -/
theorem C7_normalizePath_idempotent (p : GoStr) :
    normalizePath (normalizePath p) = normalizePath p :=
  normalizePath_idem_aux p

/-- Claim C6: first observation wins.  Recording a path whose normalized form
is already present leaves that entry entirely unchanged, and any other
existing entry is either left unchanged or — only when its kind was
`unknown` — promoted to a structural kind (`object` or `array`) with all
other fields preserved. -/
theorem C6_first_observation_wins (t : parser.Table) (p : GoStr) (v : parser.ValuePath)
    (hpresent : parser.getV t (normalizePath p) = some v) :
    parser.getV (parser.addValuePathWithHints t p) (normalizePath p) = some v ∧
    (∀ q w, parser.getV t q = some w →
      ∃ w', parser.getV (parser.addValuePathWithHints t p) q = some w' ∧
        (w' = w ∨ (w.Typ = str "unknown" ∧ w'.Path = w.Path ∧ w'.Required = w.Required ∧
          w'.Default = w.Default ∧ (w'.Typ = str "object" ∨ w'.Typ = str "array")))) :=
  ⟨parser.avp_self t p v hpresent, fun q w h => parser.avp_evolution t p q w h⟩

/-- Witness for C6 at a concrete table: re-recording `a` over the table built
from recording `a` leaves its `unknown` entry untouched. -/
theorem C6_first_observation_wins_witness :
    parser.getV (parser.addValuePathWithHints (parser.applyOps [str "a"]) (str "a"))
        (normalizePath (str "a")) =
      some { Path := str "a", Typ := str "unknown", Required := false, Default := none } ∧
    (∀ q w, parser.getV (parser.applyOps [str "a"]) q = some w →
      ∃ w', parser.getV (parser.addValuePathWithHints (parser.applyOps [str "a"]) (str "a"))
          q = some w' ∧
        (w' = w ∨ (w.Typ = str "unknown" ∧ w'.Path = w.Path ∧ w'.Required = w.Required ∧
          w'.Default = w.Default ∧ (w'.Typ = str "object" ∨ w'.Typ = str "array")))) :=
  C6_first_observation_wins (parser.applyOps [str "a"]) (str "a")
    { Path := str "a", Typ := str "unknown", Required := false, Default := none }
    (by decide)

namespace parser

/-- Embedding of the `TemplateParser` struct: the value-path table, the
variable-binding table and the subchart parser map.  The compiled regular
expressions held by the Go struct are constants; they are embedded as the
scanner functions defined below. -/
inductive TemplateParser where
  | mk (values : Table) (vars : List (GoStr × GoStr))
      (subcharts : List (GoStr × TemplateParser))

/-- The `values` field. -/
def TemplateParser.values : TemplateParser → Table
  | .mk v _ _ => v

/-- The `variables` field of the Go struct (`variables` is reserved in
Lean, so the projection is named `vars`). -/
def TemplateParser.vars : TemplateParser → List (GoStr × GoStr)
  | .mk _ v _ => v

/-- The `subcharts` field. -/
def TemplateParser.subcharts : TemplateParser → List (GoStr × TemplateParser)
  | .mk _ _ s => s

/-- Inner loop shared by `GetAllValues` and `getAllValuesParallel`: write one
subchart's aggregated entries into the accumulator, re-keyed under
`subchartName + "."`.  In the parallel variant the same loop body runs under
the mutex, so each subchart contributes one atomic batch. -/
def mergeChildEntries (subchartName : GoStr) (acc : Table) (subchartValues : Table) : Table :=
  subchartValues.foldl
    (fun acc2 pv =>
      let prefixedPath := subchartName ++ str "." ++ pv.1
      setEntry acc2 prefixedPath
        { Path := prefixedPath, Typ := pv.2.Typ, Required := pv.2.Required,
          Default := pv.2.Default })
    acc

mutual
/-- Embedding of `GetAllValues`: copy the parser's own table, then merge every
subchart's recursively aggregated table re-keyed under the subchart name.
The Go function dispatches to `getAllValuesParallel` above 5 subcharts; both
variants perform exactly these per-subchart batch merges and differ only in
the nondeterministic order in which batches reach the accumulator (Go map
iteration order, and goroutine scheduling under the mutex).  The embedding
merges in subchart-list order; the theorems below quantify over
permutations of that order to cover both strategies and all schedules. -/
def getAllValues : TemplateParser → Table
  | .mk values _ subcharts => gavChildren values subcharts

/-- Merge loop of `GetAllValues` over the subchart map. -/
def gavChildren : Table → List (GoStr × TemplateParser) → Table
  | allValues, [] => allValues
  | allValues, (subchartName, subchartParser) :: rest =>
      gavChildren (mergeChildEntries subchartName allValues (getAllValues subchartParser)) rest
end

/-- Key/Path consistency at every node of a parser tree. -/
inductive TreeKPI : TemplateParser → Prop where
  | mk {values : Table} {vars : List (GoStr × GoStr)}
      {subcharts : List (GoStr × TemplateParser)} :
      KeyPathInv values →
      (∀ c ∈ subcharts, TreeKPI c.2) →
      TreeKPI (.mk values vars subcharts)

theorem mergeChildEntries_keyPath (nm : GoStr) (sub : Table) :
    ∀ acc : Table, KeyPathInv acc → KeyPathInv (mergeChildEntries nm acc sub) := by
  induction sub with
  | nil => intro acc h; exact h
  | cons e rest ih =>
    intro acc h
    refine ih _ ?_
    intro k w hk
    by_cases hkq : k = nm ++ str "." ++ e.1
    · subst hkq
      rw [getV_setEntry_self] at hk
      cases hk
      rfl
    · rw [getV_setEntry_ne _ _ _ k (fun hh => hkq hh.symm)] at hk
      exact h k w hk

theorem gavChildren_keyPath (cs : List (GoStr × TemplateParser)) :
    ∀ acc : Table, KeyPathInv acc → KeyPathInv (gavChildren acc cs) := by
  induction cs with
  | nil => intro acc h; exact h
  | cons c rest ih =>
    intro acc h
    match c with
    | (nm, sub) => exact ih _ (mergeChildEntries_keyPath nm (getAllValues sub) acc h)

theorem getAllValues_keyPath (t : TemplateParser) (h : TreeKPI t) :
    KeyPathInv (getAllValues t) := by
  cases h with
  | mk hv hc => exact gavChildren_keyPath _ _ hv

end parser

/-- Claim C10: in every table the parser produces — the per-bundle table
after any sequence of recording operations, and the aggregated table
returned by `GetAllValues` on a tree whose node tables satisfy the same
property — every entry's `Path` field equals the map key it is stored
under. -/
theorem C10_key_path_consistency :
    (∀ (ops : List GoStr) (k : GoStr) (w : parser.ValuePath),
      parser.getV (parser.applyOps ops) k = some w → w.Path = k) ∧
    (∀ t : parser.TemplateParser, parser.TreeKPI t →
      ∀ (k : GoStr) (w : parser.ValuePath),
        parser.getV (parser.getAllValues t) k = some w → w.Path = k) :=
  ⟨fun ops k w h => parser.applyOps_keyPath ops k w h,
   fun t ht k w h => parser.getAllValues_keyPath t ht k w h⟩

/-- Parser tree used in the C10 witness: no own values, one subchart `c`
holding the single path `b`. -/
def kpWitnessTree : parser.TemplateParser :=
  .mk [] []
    [(str "c", .mk
      [(str "b", { Path := str "b", Typ := str "unknown", Required := false, Default := none })]
      [] [])]

theorem kpWitnessTree_treeKPI : parser.TreeKPI kpWitnessTree := by
  refine parser.TreeKPI.mk (fun k w hw => Option.noConfusion hw) ?_
  intro c hc
  simp only [kpWitnessTree, List.mem_singleton] at hc
  subst hc
  refine parser.TreeKPI.mk ?_ (fun c hc => by simp at hc)
  intro k w hw
  unfold parser.getV at hw
  by_cases hk : str "b" = k
  · rw [if_pos hk] at hw
    cases hw
    exact hk
  · rw [if_neg hk] at hw
    exact Option.noConfusion hw

/-- Witness for C10: both conjuncts applied at concrete inputs — the table
built by recording `x.y`, and the aggregation of `kpWitnessTree`. -/
theorem C10_key_path_consistency_witness :
    ({ Path := str "x", Typ := str "object", Required := false, Default := none }
        : parser.ValuePath).Path = str "x" ∧
    ({ Path := str "c.b", Typ := str "unknown", Required := false, Default := none }
        : parser.ValuePath).Path = str "c.b" :=
  ⟨C10_key_path_consistency.1 [str "x.y"] (str "x")
      { Path := str "x", Typ := str "object", Required := false, Default := none } (by decide),
   C10_key_path_consistency.2 kpWitnessTree kpWitnessTree_treeKPI (str "c.b")
      { Path := str "c.b", Typ := str "unknown", Required := false, Default := none } (by decide)⟩

namespace parser

/-- Distinctness of an association list's keys (automatic for Go maps). -/
def nodupKeys (t : Table) : Prop := (t.map Prod.fst).Nodup

theorem mem_keys_setEntry (t : Table) (k : GoStr) (v : ValuePath) :
    ∀ x : GoStr, x ∈ (setEntry t k v).map Prod.fst → x ∈ t.map Prod.fst ∨ x = k := by
  induction t with
  | nil =>
    intro x h
    right
    simpa [setEntry] using h
  | cons e t ih =>
    intro x h
    by_cases he : e.1 = k
    · rw [show setEntry (e :: t) k v = (k, v) :: t from by simp [setEntry, he]] at h
      rw [List.map_cons, List.mem_cons] at h
      rcases h with h1 | h1
      · exact Or.inr h1
      · left
        rw [List.map_cons, List.mem_cons]
        right
        exact h1
    · rw [show setEntry (e :: t) k v = e :: setEntry t k v from by simp [setEntry, he]] at h
      rw [List.map_cons, List.mem_cons] at h
      rcases h with h1 | h1
      · left
        rw [List.map_cons, List.mem_cons]
        left
        exact h1
      · rcases ih x h1 with h2 | h2
        · left
          rw [List.map_cons, List.mem_cons]
          right
          exact h2
        · exact Or.inr h2

theorem nodupKeys_setEntry (t : Table) (k : GoStr) (v : ValuePath)
    (h : nodupKeys t) : nodupKeys (setEntry t k v) := by
  induction t with
  | nil => simp [nodupKeys, setEntry]
  | cons e t ih =>
    unfold nodupKeys at h
    rw [List.map_cons, List.nodup_cons] at h
    by_cases he : e.1 = k
    · unfold nodupKeys
      rw [show setEntry (e :: t) k v = (k, v) :: t from by simp [setEntry, he]]
      rw [List.map_cons, List.nodup_cons]
      exact ⟨he ▸ h.1, h.2⟩
    · unfold nodupKeys
      rw [show setEntry (e :: t) k v = e :: setEntry t k v from by simp [setEntry, he]]
      rw [List.map_cons, List.nodup_cons]
      refine ⟨?_, ih h.2⟩
      intro hmem
      rcases mem_keys_setEntry t k v e.1 hmem with h1 | h1
      · exact h.1 h1
      · exact he h1

theorem nodupKeys_mergeChildEntries (nm : GoStr) (sub : Table) :
    ∀ acc : Table, nodupKeys acc → nodupKeys (mergeChildEntries nm acc sub) := by
  induction sub with
  | nil => intro acc h; exact h
  | cons e rest ih =>
    intro acc h
    exact ih _ (nodupKeys_setEntry acc _ _ h)

theorem gavChildren_cons (acc : Table) (c : GoStr × TemplateParser)
    (rest : List (GoStr × TemplateParser)) :
    gavChildren acc (c :: rest) =
      gavChildren (mergeChildEntries c.1 acc (getAllValues c.2)) rest := by
  cases c
  rfl

theorem nodupKeys_gavChildren (cs : List (GoStr × TemplateParser)) :
    ∀ acc : Table, nodupKeys acc → nodupKeys (gavChildren acc cs) := by
  induction cs with
  | nil => intro acc h; exact h
  | cons c rest ih =>
    intro acc h
    rw [gavChildren_cons]
    exact ih _ (nodupKeys_mergeChildEntries c.1 (getAllValues c.2) acc h)

/-- Last-match lookup describing what `mergeChildEntries` writes at key `k`. -/
def mergeLook (nm : GoStr) (sub : Table) (k : GoStr) : Option ValuePath :=
  sub.foldl
    (fun r pv =>
      if k = nm ++ str "." ++ pv.1 then
        some { Path := k, Typ := pv.2.Typ, Required := pv.2.Required, Default := pv.2.Default }
      else r)
    none

theorem mergeLook_gen (nm k : GoStr) :
    ∀ (sub : Table) (r : Option ValuePath),
      sub.foldl
        (fun r pv =>
          if k = nm ++ str "." ++ pv.1 then
            some { Path := k, Typ := pv.2.Typ, Required := pv.2.Required, Default := pv.2.Default }
          else r)
        r =
      match mergeLook nm sub k with
      | some v => some v
      | none => r := by
  intro sub
  induction sub with
  | nil => intro r; rfl
  | cons e rest ih =>
    intro r
    show rest.foldl _ _ = _
    rw [ih]
    have hm : mergeLook nm (e :: rest) k =
        match mergeLook nm rest k with
        | some v => some v
        | none => (if k = nm ++ str "." ++ e.1 then some { Path := k, Typ := e.2.Typ, Required := e.2.Required, Default := e.2.Default } else none) := by
      show rest.foldl _ _ = _
      rw [ih]
    rw [hm]
    cases hr : mergeLook nm rest k with
    | some v => rfl
    | none =>
      by_cases hc : k = nm ++ str "." ++ e.1
      · simp [hc]
      · dsimp only
        rw [if_neg hc, if_neg hc]

theorem mergeLook_cons (nm k : GoStr) (e : GoStr × ValuePath) (rest : Table) :
    mergeLook nm (e :: rest) k =
      match mergeLook nm rest k with
      | some v => some v
      | none => (if k = nm ++ str "." ++ e.1 then some { Path := k, Typ := e.2.Typ, Required := e.2.Required, Default := e.2.Default } else none) := by
  show rest.foldl _ _ = _
  rw [mergeLook_gen]

theorem mergeChildEntries_cons (nm : GoStr) (acc : Table) (e : GoStr × ValuePath)
    (rest : Table) :
    mergeChildEntries nm acc (e :: rest) =
      mergeChildEntries nm
        (setEntry acc (nm ++ str "." ++ e.1)
          { Path := nm ++ str "." ++ e.1, Typ := e.2.Typ, Required := e.2.Required, Default := e.2.Default })
        rest := rfl

theorem getV_mergeChildEntries (nm : GoStr) :
    ∀ (sub acc : Table) (k : GoStr),
      getV (mergeChildEntries nm acc sub) k =
        match mergeLook nm sub k with
        | some v => some v
        | none => getV acc k := by
  intro sub
  induction sub with
  | nil => intro acc k; rfl
  | cons e rest ih =>
    intro acc k
    rw [mergeChildEntries_cons, ih, mergeLook_cons]
    cases hr : mergeLook nm rest k with
    | some v => rfl
    | none =>
      by_cases hc : k = nm ++ str "." ++ e.1
      · simp only [hc, if_pos]
        subst hc
        rw [getV_setEntry_self]
      · simp only [hc, if_neg, if_false]
        rw [getV_setEntry_ne _ _ _ _ (fun hh => hc hh.symm)]

theorem mergeLook_some_shape (nm : GoStr) :
    ∀ (sub : Table) (k : GoStr) (v : ValuePath),
      mergeLook nm sub k = some v → ∃ e ∈ sub, k = nm ++ str "." ++ e.1 := by
  intro sub
  induction sub with
  | nil => intro k v h; exact Option.noConfusion h
  | cons e rest ih =>
    intro k v h
    rw [mergeLook_cons] at h
    cases hr : mergeLook nm rest k with
    | some v' =>
      obtain ⟨e', he', hk⟩ := ih k v' hr
      exact ⟨e', List.mem_cons_of_mem e he', hk⟩
    | none =>
      rw [hr] at h
      by_cases hc : k = nm ++ str "." ++ e.1
      · exact ⟨e, List.mem_cons_self e rest, hc⟩
      · simp [hc] at h
        exact absurd (by simpa [List.append_assoc] using h.1) hc

theorem dotfree_prefix_eq (a : GoStr) :
    ∀ (b x y : GoStr), '.' ∉ a → '.' ∉ b →
      a ++ str "." ++ x = b ++ str "." ++ y → a = b ∧ x = y := by
  induction a with
  | nil =>
    intro b x y _ hb h
    match b with
    | [] =>
      simp [str] at h
      exact ⟨rfl, h⟩
    | c :: b' =>
      simp [str] at h
      obtain ⟨h1, -⟩ := h
      exact absurd (by simp [← h1]) hb
  | cons c a' ih =>
    intro b x y ha hb h
    match b with
    | [] =>
      simp [str] at h
      obtain ⟨h1, -⟩ := h
      exact absurd (by simp [h1]) ha
    | d :: b' =>
      simp only [str] at h ih ⊢
      rw [List.cons_append, List.cons_append, List.cons_append, List.cons_append] at h
      obtain ⟨h1, h2⟩ := List.cons.injEq c _ d _ ▸ h
      have ha' : '.' ∉ a' := fun hm => ha (by simp [hm])
      have hb' : '.' ∉ b' := fun hm => hb (by simp [hm])
      obtain ⟨h3, h4⟩ := ih b' x y ha' hb' (by simpa using h2)
      exact ⟨by rw [h1, h3], h4⟩

theorem appended_path_eq (nm p q : GoStr)
    (h : nm ++ str "." ++ p = nm ++ str "." ++ q) : p = q := by
  rw [List.append_assoc, List.append_assoc] at h
  exact List.append_cancel_left (List.append_cancel_left h)

theorem mergeLook_nodup (nm : GoStr) :
    ∀ (sub : Table), nodupKeys sub → ∀ (k p : GoStr), k = nm ++ str "." ++ p →
      mergeLook nm sub k =
        (getV sub p).map
          (fun v => { Path := k, Typ := v.Typ, Required := v.Required, Default := v.Default }) := by
  intro sub
  induction sub with
  | nil => intro _ k p _; rfl
  | cons e rest ih =>
    obtain ⟨k0, v0⟩ := e
    intro hnd k p hk
    unfold nodupKeys at hnd
    rw [List.map_cons, List.nodup_cons] at hnd
    rw [mergeLook_cons]
    by_cases hp : p = k0
    · have hnone : mergeLook nm rest k = none := by
        cases hr : mergeLook nm rest k with
        | none => rfl
        | some v =>
          obtain ⟨e', he', hk'⟩ := mergeLook_some_shape nm rest k v hr
          have hpe : p = e'.1 := appended_path_eq nm p e'.1 (by rw [← hk, ← hk'])
          have hmem : (k0, v0).1 ∈ List.map Prod.fst rest := by
            show k0 ∈ List.map Prod.fst rest
            rw [← hp, hpe]
            exact List.mem_map_of_mem Prod.fst he'
          exact absurd hmem hnd.1
      rw [hnone]
      have hke : k = nm ++ str "." ++ (k0, v0).1 := by rw [hk, hp]
      rw [if_pos hke]
      rw [getV_cons, if_pos hp.symm]
      rfl
    · have hkne : ¬k = nm ++ str "." ++ (k0, v0).1 := by
        intro hh
        exact hp (appended_path_eq nm p k0 (by rw [← hk, hh]))
      have hg : getV ((k0, v0) :: rest) p = getV rest p := by
        rw [getV_cons, if_neg (fun hh => hp hh.symm)]
      rw [hg, ← ih hnd.2 k p hk]
      cases hr : mergeLook nm rest k with
      | some v => rfl
      | none => rw [if_neg hkne]

theorem mergeLook_none_of_no_form (nm : GoStr) (sub : Table) (k : GoStr)
    (h : ∀ p : GoStr, k ≠ nm ++ str "." ++ p) : mergeLook nm sub k = none := by
  cases hr : mergeLook nm sub k with
  | none => rfl
  | some v =>
    obtain ⟨e, he, hk⟩ := mergeLook_some_shape nm sub k v hr
    exact absurd hk (h e.1)

theorem merge_pointwise (nm : GoStr) (tA tB acc : Table)
    (heq : ∀ p, getV tA p = getV tB p) (hA : nodupKeys tA) (hB : nodupKeys tB)
    (k : GoStr) :
    getV (mergeChildEntries nm acc tA) k = getV (mergeChildEntries nm acc tB) k := by
  rw [getV_mergeChildEntries, getV_mergeChildEntries]
  have : mergeLook nm tA k = mergeLook nm tB k := by
    by_cases hx : ∃ p, k = nm ++ str "." ++ p
    · obtain ⟨p, hp⟩ := hx
      rw [mergeLook_nodup nm tA hA k p hp, mergeLook_nodup nm tB hB k p hp, heq p]
    · rw [mergeLook_none_of_no_form nm tA k (fun p hp => hx ⟨p, hp⟩),
        mergeLook_none_of_no_form nm tB k (fun p hp => hx ⟨p, hp⟩)]
  rw [this]

theorem merge_acc_pointwise (nm : GoStr) (sub : Table) (acc1 acc2 : Table)
    (h : ∀ k, getV acc1 k = getV acc2 k) (k : GoStr) :
    getV (mergeChildEntries nm acc1 sub) k = getV (mergeChildEntries nm acc2 sub) k := by
  rw [getV_mergeChildEntries, getV_mergeChildEntries]
  cases mergeLook nm sub k with
  | some v => rfl
  | none => exact h k

theorem merge_comm (nmA nmB : GoStr) (tA tB acc : Table)
    (hne : nmA ≠ nmB) (hA : '.' ∉ nmA) (hB : '.' ∉ nmB) (k : GoStr) :
    getV (mergeChildEntries nmB (mergeChildEntries nmA acc tA) tB) k =
      getV (mergeChildEntries nmA (mergeChildEntries nmB acc tB) tA) k := by
  rw [getV_mergeChildEntries, getV_mergeChildEntries, getV_mergeChildEntries,
    getV_mergeChildEntries]
  cases hrB : mergeLook nmB tB k with
  | some vB =>
    cases hrA : mergeLook nmA tA k with
    | some vA =>
      obtain ⟨eB, heB, hkB⟩ := mergeLook_some_shape nmB tB k vB hrB
      obtain ⟨eA, heA, hkA⟩ := mergeLook_some_shape nmA tA k vA hrA
      exact absurd (dotfree_prefix_eq nmA nmB eA.1 eB.1 hA hB (hkA ▸ hkB)).1 hne
    | none => rfl
  | none =>
    cases hrA : mergeLook nmA tA k with
    | some vA => rfl
    | none => rfl

theorem gavChildren_acc_pointwise (cs : List (GoStr × TemplateParser)) :
    ∀ (acc1 acc2 : Table), (∀ k, getV acc1 k = getV acc2 k) →
      ∀ k, getV (gavChildren acc1 cs) k = getV (gavChildren acc2 cs) k := by
  induction cs with
  | nil => intro acc1 acc2 h k; exact h k
  | cons c rest ih =>
    intro acc1 acc2 h k
    rw [gavChildren_cons, gavChildren_cons]
    exact ih _ _ (fun k' => merge_acc_pointwise c.1 (getAllValues c.2) acc1 acc2 h k') k

theorem gavChildren_perm (cs cs2 : List (GoStr × TemplateParser)) (hperm : cs.Perm cs2) :
    (∀ c ∈ cs, '.' ∉ c.1) → (cs.map Prod.fst).Nodup →
    ∀ (acc : Table) (k : GoStr),
      getV (gavChildren acc cs) k = getV (gavChildren acc cs2) k := by
  induction hperm with
  | nil => intro _ _ acc k; rfl
  | cons a h ih =>
    intro hdf hnd acc k
    rw [gavChildren_cons, gavChildren_cons]
    refine ih (fun c hc => hdf c (List.mem_cons_of_mem a hc)) ?_ _ k
    rw [List.map_cons, List.nodup_cons] at hnd
    exact hnd.2
  | swap x y l =>
    intro hdf hnd acc k
    rw [gavChildren_cons, gavChildren_cons, gavChildren_cons, gavChildren_cons]
    refine gavChildren_acc_pointwise l _ _ ?_ k
    intro k'
    have hyx : y.1 ≠ x.1 := by
      rw [List.map_cons, List.map_cons, List.nodup_cons] at hnd
      intro hh
      exact hnd.1 (by rw [hh]; exact List.mem_cons_self _ _)
    exact merge_comm y.1 x.1 (getAllValues y.2) (getAllValues x.2) acc hyx
      (hdf y (List.mem_cons_self y _)) (hdf x (List.mem_cons_of_mem y (List.mem_cons_self x l))) k'
  | trans h12 h23 ih12 ih23 =>
    intro hdf hnd acc k
    rw [ih12 hdf hnd acc k]
    refine ih23 ?_ ?_ acc k
    · intro c hc
      exact hdf c ((h12.mem_iff).mpr hc)
    · exact ((h12.map Prod.fst).nodup_iff).mp hnd

theorem gavChildren_pointwise (cs : List (GoStr × TemplateParser)) :
    ∀ (cs' : List (GoStr × TemplateParser)),
      cs.map Prod.fst = cs'.map Prod.fst →
      (∀ p ∈ cs.zip cs', ∀ k, getV (getAllValues p.1.2) k = getV (getAllValues p.2.2) k) →
      (∀ c ∈ cs, nodupKeys (getAllValues c.2)) →
      (∀ c ∈ cs', nodupKeys (getAllValues c.2)) →
      ∀ (acc : Table) (k : GoStr),
        getV (gavChildren acc cs) k = getV (gavChildren acc cs') k := by
  induction cs with
  | nil =>
    intro cs' hmap _ _ _ acc k
    cases cs' with
    | nil => rfl
    | cons b cs'' => simp at hmap
  | cons a cs ih =>
    intro cs' hmap hzip hndA hndB acc k
    cases cs' with
    | nil => simp at hmap
    | cons b cs'' =>
      rw [List.map_cons, List.map_cons] at hmap
      have h1 : a.1 = b.1 := by injection hmap
      have h2 : cs.map Prod.fst = cs''.map Prod.fst := by injection hmap
      rw [gavChildren_cons, gavChildren_cons]
      have step1 : ∀ k', getV (mergeChildEntries a.1 acc (getAllValues a.2)) k' =
          getV (mergeChildEntries b.1 acc (getAllValues b.2)) k' := by
        intro k'
        rw [h1]
        exact merge_pointwise b.1 (getAllValues a.2) (getAllValues b.2) acc
          (fun p => hzip (a, b) (by rw [List.zip_cons_cons]; exact List.mem_cons_self _ _) p)
          (hndA a (List.mem_cons_self a cs)) (hndB b (List.mem_cons_self b cs'')) k'
      calc getV (gavChildren (mergeChildEntries a.1 acc (getAllValues a.2)) cs) k
          = getV (gavChildren (mergeChildEntries b.1 acc (getAllValues b.2)) cs) k :=
            gavChildren_acc_pointwise cs _ _ step1 k
        _ = getV (gavChildren (mergeChildEntries b.1 acc (getAllValues b.2)) cs'') k := by
            refine ih cs'' h2 ?_ ?_ ?_ _ k
            · intro p hp
              exact hzip p (by rw [List.zip_cons_cons]; exact List.mem_cons_of_mem _ hp)
            · intro c hc
              exact hndA c (List.mem_cons_of_mem a hc)
            · intro c hc
              exact hndB c (List.mem_cons_of_mem b hc)

/-- Two parser trees with identical node contents whose subchart maps are
merged in possibly different orders at every node.  This captures all
schedules of both `GetAllValues` strategies: the sequential loop visits the
Go map in nondeterministic order, and the parallel variant's goroutine
batches are serialized by the mutex in nondeterministic order. -/
inductive PermTree : TemplateParser → TemplateParser → Prop where
  | mk {values : Table} {vars : List (GoStr × GoStr)}
      {cs mid cs' : List (GoStr × TemplateParser)} :
      cs.Perm mid →
      mid.map Prod.fst = cs'.map Prod.fst →
      (∀ p ∈ mid.zip cs', PermTree p.1.2 p.2.2) →
      PermTree (.mk values vars cs) (.mk values vars cs')

/-- Well-formedness under which aggregation is order independent: at every
node the value table has distinct keys (a Go map invariant), and subchart
names are pairwise distinct (a Go map invariant) and contain no dot (Helm
chart naming). -/
inductive TreeWF : TemplateParser → Prop where
  | mk {values : Table} {vars : List (GoStr × GoStr)}
      {cs : List (GoStr × TemplateParser)} :
      nodupKeys values →
      (∀ c ∈ cs, '.' ∉ c.1) →
      (cs.map Prod.fst).Nodup →
      (∀ c ∈ cs, TreeWF c.2) →
      TreeWF (.mk values vars cs)

theorem nodupKeys_getAllValues (t : TemplateParser) (h : TreeWF t) :
    nodupKeys (getAllValues t) := by
  cases h with
  | mk hndV hdf hndN hsub => exact nodupKeys_gavChildren _ _ hndV

theorem getAllValues_permTree (t t' : TemplateParser) (hp : PermTree t t') :
    TreeWF t → TreeWF t' → ∀ k, getV (getAllValues t) k = getV (getAllValues t') k := by
  induction hp with
  | mk hperm hmap hzip ih =>
    intro hwA hwB k
    rename_i values vars cs mid cs'
    cases hwA with
    | mk hndV hdfA hndA hsubA =>
      cases hwB with
      | mk hndV' hdfB hndB hsubB =>
        show getV (gavChildren values cs) k = getV (gavChildren values cs') k
        rw [gavChildren_perm cs mid hperm hdfA hndA values k]
        refine gavChildren_pointwise mid cs' hmap ?_ ?_ ?_ values k
        · intro p hp k'
          have hm1 : p.1 ∈ mid := (List.of_mem_zip hp).1
          have hm2 : p.2 ∈ cs' := (List.of_mem_zip hp).2
          exact ih p hp (hsubA p.1 ((hperm.mem_iff).mpr hm1)) (hsubB p.2 hm2) k'
        · intro c hc
          exact nodupKeys_getAllValues c.2 (hsubA c ((hperm.mem_iff).mpr hc))
        · intro c hc
          exact nodupKeys_getAllValues c.2 (hsubB c hc)

end parser

namespace parser

theorem permTree_leaf (v : Table) (va : List (GoStr × GoStr)) :
    PermTree (.mk v va []) (.mk v va []) :=
  PermTree.mk List.Perm.nil rfl (fun p hp => absurd hp (by simp))

theorem treeWF_leaf (v : Table) (va : List (GoStr × GoStr)) (h : nodupKeys v) :
    TreeWF (.mk v va []) :=
  TreeWF.mk h (fun c hc => absurd hc (by simp)) (by simp)
    (fun c hc => absurd hc (by simp))

end parser

/-- Subchart parser holding the single path `b.c`, used in the C2
counterexample. -/
def cexChild1 : parser.TemplateParser :=
  .mk [(str "b.c", { Path := str "b.c", Typ := str "unknown", Required := false, Default := none })]
    [] []

/-- Subchart parser holding the single path `c`, used in the C2
counterexample. -/
def cexChild2 : parser.TemplateParser :=
  .mk [(str "c", { Path := str "c", Typ := str "object", Required := false, Default := none })]
    [] []

/-- Parser whose subchart names `a` and `a.b` are merged in one order. -/
def cexA : parser.TemplateParser :=
  .mk [] [] [(str "a", cexChild1), (str "a.b", cexChild2)]

/-- The same parser with its two subchart batches merged in the other
order — a legal schedule of the same `GetAllValues` call. -/
def cexB : parser.TemplateParser :=
  .mk [] [] [(str "a.b", cexChild2), (str "a", cexChild1)]

theorem cex_permTree : parser.PermTree cexA cexB := by
  refine parser.PermTree.mk
    (List.Perm.swap (str "a.b", cexChild2) (str "a", cexChild1) []) rfl ?_
  intro p hp
  simp only [List.zip_cons_cons, List.zip_nil_right, List.mem_cons,
    List.not_mem_nil, or_false] at hp
  rcases hp with hp | hp <;> (subst hp; exact parser.permTree_leaf _ _)

/-- Counterexample to claim C2 as stated: for the parser tree with subchart
names `a` and `a.b` — identical node contents, merely a different merge
order of the two subchart batches — the aggregated tables differ at the key
`a.b.c`, because the re-keyed path sets of the two subcharts are not
disjoint.  This refutes "identical under every interleaving/order of child
merges ... keys are disjoint by construction" for arbitrary parser trees. -/
theorem C2_counterexample :
    parser.PermTree cexA cexB ∧
    parser.getV (parser.getAllValues cexA) (str "a.b.c") ≠
      parser.getV (parser.getAllValues cexB) (str "a.b.c") :=
  ⟨cex_permTree, by decide⟩

/-- Claim C2 (amended): for every parser tree whose subchart names are
pairwise distinct and contain no dot (as Helm chart names do), and whose
tables have distinct keys (a Go map invariant), the aggregated table of
`GetAllValues` is the same — pointwise at every key — no matter in which
order the subchart batches are merged at every node of the tree; hence the
sequential (`≤ 5` subcharts) and concurrent (`> 5` subcharts) strategies,
whose schedules are exactly such merge orders, return identical tables. -/
theorem C2_aggregation_order_independence (t t' : parser.TemplateParser)
    (hperm : parser.PermTree t t') (hwf : parser.TreeWF t) (hwf' : parser.TreeWF t')
    (k : GoStr) :
    parser.getV (parser.getAllValues t) k = parser.getV (parser.getAllValues t') k :=
  parser.getAllValues_permTree t t' hperm hwf hwf' k

/-- Subchart parser holding the single path `x`, used in the C2 witness. -/
def wChild1 : parser.TemplateParser :=
  .mk [(str "x", { Path := str "x", Typ := str "unknown", Required := false, Default := none })]
    [] []

/-- Subchart parser holding the single path `y`, used in the C2 witness. -/
def wChild2 : parser.TemplateParser :=
  .mk [(str "y", { Path := str "y", Typ := str "unknown", Required := false, Default := none })]
    [] []

/-- Tree with dot-free subchart names `u`, `v`, one merge order. -/
def wTreeA : parser.TemplateParser :=
  .mk [] [] [(str "u", wChild1), (str "v", wChild2)]

/-- The same tree, other merge order. -/
def wTreeB : parser.TemplateParser :=
  .mk [] [] [(str "v", wChild2), (str "u", wChild1)]

theorem wTree_permTree : parser.PermTree wTreeA wTreeB := by
  refine parser.PermTree.mk
    (List.Perm.swap (str "v", wChild2) (str "u", wChild1) []) rfl ?_
  intro p hp
  simp only [List.zip_cons_cons, List.zip_nil_right, List.mem_cons,
    List.not_mem_nil, or_false] at hp
  rcases hp with hp | hp <;> (subst hp; exact parser.permTree_leaf _ _)

theorem wTreeA_wf : parser.TreeWF wTreeA := by
  refine parser.TreeWF.mk (by unfold parser.nodupKeys; decide) (by decide)
    (by decide) ?_
  intro c hc
  simp only [wTreeA, List.mem_cons, List.not_mem_nil, or_false] at hc
  rcases hc with hc | hc <;>
    (subst hc; exact parser.treeWF_leaf _ _ (by unfold parser.nodupKeys; decide))

theorem wTreeB_wf : parser.TreeWF wTreeB := by
  refine parser.TreeWF.mk (by unfold parser.nodupKeys; decide) (by decide)
    (by decide) ?_
  intro c hc
  simp only [wTreeB, List.mem_cons, List.not_mem_nil, or_false] at hc
  rcases hc with hc | hc <;>
    (subst hc; exact parser.treeWF_leaf _ _ (by unfold parser.nodupKeys; decide))

/-- Witness for the amended C2 theorem at a concrete tree with dot-free
subchart names: both merge orders agree at the key `u.x`. -/
theorem C2_aggregation_order_independence_witness :
    parser.getV (parser.getAllValues wTreeA) (str "u.x") =
      parser.getV (parser.getAllValues wTreeB) (str "u.x") :=
  C2_aggregation_order_independence wTreeA wTreeB wTree_permTree wTreeA_wf wTreeB_wf
    (str "u.x")

/-! ## Pipeline-hint type inference (`inferTypeFromHints`, second parser
document): tokenizing `\x7b\x7b ... \x7d\x7d` pipelines and classifying
paths by `range`/function-call usage hints. -/

/-- `strings.Contains hay needle`. -/
def hasSub (hay needle : GoStr) : Bool :=
  match hay with
  | [] => needle.isEmpty
  | c :: t => needle.isPrefixOf (c :: t) || hasSub t needle

namespace pipeline

/-- The character class `\s` of Go regexp: `[\t\n\f\r ]`. -/
def isWsRe (c : Char) : Bool :=
  c = ' ' || c = '\t' || c = '\n' || c = '\x0C' || c = '\r'

/-- ASCII fragment of `unicode.IsSpace`, as used by `strings.TrimSpace`. -/
def isSpaceGo (c : Char) : Bool :=
  c = ' ' || c = '\t' || c = '\n' || c = '\x0B' || c = '\x0C' || c = '\r'

/-- `strings.TrimSpace`. -/
def trimSpace (s : GoStr) : GoStr :=
  ((s.dropWhile isSpaceGo).reverse.dropWhile isSpaceGo).reverse

/-- The capture group produced by matching `-?\s*([^\x7d]+)\s*-?` against
the run `m` of non-`\x7d` characters that follows `\x7b\x7b`: the greedy
group takes everything after the optional dash and maximal whitespace run;
when nothing is left the engine backtracks, first giving the group the last
whitespace character, then the dash itself; an empty run cannot match. -/
def pipeGroup (m : GoStr) : Option GoStr :=
  let m1 := match m with
    | '-' :: r => r
    | _ => m
  match m1.dropWhile isWsRe with
  | c :: cs => some (c :: cs)
  | [] =>
    match m1.reverse with
    | c :: _ => some [c]
    | [] =>
      match m with
      | '-' :: _ => some (str "-")
      | _ => none

/-- One attempt of the pipeline regex
`\x7b\x7b-?\s*([^\x7d]+)\s*-?\x7d\x7d` at the start of `s`:
the bracketed run extends to the first `\x7d`, which must be doubled. -/
def tryPipe (s : GoStr) : Option (GoStr × GoStr) :=
  match s with
  | '\x7b' :: '\x7b' :: rest =>
    let m := rest.takeWhile (fun c => c ≠ '\x7d')
    let after := rest.dropWhile (fun c => c ≠ '\x7d')
    match after with
    | '\x7d' :: '\x7d' :: tail =>
      match pipeGroup m with
      | some g => some (g, tail)
      | none => none
    | _ => none
  | _ => none

/-- `FindAllStringSubmatch` of the pipeline regex: scan left to right,
emitting each capture group and resuming after the consumed match. -/
def findPipelines : Nat → GoStr → List GoStr
  | 0, _ => []
  | _ + 1, [] => []
  | fuel + 1, c :: cs =>
    match tryPipe (c :: cs) with
    | some (body, tail) => body :: findPipelines fuel tail
    | none => findPipelines fuel cs

/-- The separator class of `tokenizePipeline`. -/
def isSep (c : Char) : Bool :=
  c = ' ' || c = '\t' || c = '\n' || c = ',' || c = ':' || c = '=' || c = '|'

/-- Rewrite a trailing `:` token into `:=` (the merge step of
`tokenizePipeline` on seeing `=` after `:`). -/
def setLastColon (acc : List GoStr) : List GoStr :=
  match acc.reverse with
  | t :: ts => if t = str ":" then (str ":=" :: ts).reverse else acc
  | [] => acc

/-- The character loop of `tokenizePipeline`: `prev` is the previously read
character (`none` at index 0); quotes toggle `inQuotes`; separators outside
quotes flush the current token (trimmed) and `,`, `|` and `:`-before-`=`
are emitted as tokens of their own, `=` after `:` merging into `:=`. -/
def tokAux : GoStr → Bool → GoStr → List GoStr → Option Char → List GoStr
  | [], _, current, acc, _ =>
    if current.isEmpty then acc else acc ++ [trimSpace current]
  | r :: rest, inQuotes, current, acc, prev =>
    if r.toNat = 34 ∨ r.toNat = 39 then
      tokAux rest (!inQuotes) (current ++ [r]) acc (some r)
    else if !inQuotes ∧ isSep r then
      let acc1 := if current.isEmpty then acc else acc ++ [trimSpace current]
      let acc2 :=
        if r = ',' ∨ r = '|' ∨ (r = ':' ∧ rest.head? = some '=') then acc1 ++ [[r]]
        else if r = '=' ∧ prev = some ':' then setLastColon acc1
        else acc1
      tokAux rest inQuotes [] acc2 (some r)
    else
      tokAux rest inQuotes (current ++ [r]) acc (some r)

/-- `tokenizePipeline`. -/
def tokenizePipeline (p : GoStr) : List GoStr :=
  tokAux p false [] [] none

def ftiAux : List GoStr → GoStr → Nat → Option Nat
  | [], _, _ => none
  | t :: ts, target, i => if t = target then some i else ftiAux ts target (i + 1)

/-- `findTokenIndex`; Go's `-1` result is `none`. -/
def findTokenIndex (tokens : List GoStr) (target : GoStr) : Option Nat :=
  ftiAux tokens target 0

structure PipelineHints where
  hasArrayIteration : Bool
  hasMapIteration : Bool
  hasArrayOperations : Bool
  hasMapOperations : Bool

/-- The comma scan `for j := rangeIndex; j < assignIndex; j++` of
`analyzePipelineTokens`. -/
def commaBetween (tokens : List GoStr) (a b : Nat) : Bool :=
  (List.range' a (b - a)).any (fun j => tokens.getD j [] == str ",")

/-- The function-call checks of one `analyzePipelineTokens` iteration at a
matching token: the preceding token and, across a `|`, the pipe target. -/
def analyzeTail (tokens : List GoStr) (h : PipelineHints) (i : Nat) :
    PipelineHints × Bool :=
  let h1 :=
    if 0 < i then
      let p := tokens.getD (i - 1) []
      if p = str "keys" ∨ p = str "values" ∨ p = str "hasKey" then
        { h with hasMapOperations := true }
      else if p = str "len" ∨ p = str "index" ∨ p = str "append" then
        { h with hasArrayOperations := true }
      else h
    else h
  let h2 :=
    if i < tokens.length - 1 then
      let nextToken := tokens.getD (i + 1) []
      if nextToken = str "|" ∧ i < tokens.length - 2 then
        let pipeFunc := tokens.getD (i + 2) []
        if pipeFunc = str "keys" ∨ pipeFunc = str "values" ∨ pipeFunc = str "hasKey" then
          { h1 with hasMapOperations := true }
        else if pipeFunc = str "len" ∨ pipeFunc = str "first" ∨ pipeFunc = str "last" then
          { h1 with hasArrayOperations := true }
        else h1
      else h1
    else h1
  (h2, false)

/-- One iteration of the `analyzePipelineTokens` loop at index `i`.  The
Boolean component is the early `return` taken on map iteration (a comma
between `range` and `:=` before the matching token). -/
def analyzeStep (tokens : List GoStr) (targetPath : GoStr) (h : PipelineHints)
    (i : Nat) : PipelineHints × Bool :=
  if tokens.getD i [] ≠ targetPath then (h, false)
  else
    match findTokenIndex tokens (str "range") with
    | some rangeIndex =>
      if rangeIndex < i then
        let isMap :=
          match findTokenIndex tokens (str ":=") with
          | some assignIndex =>
            decide (assignIndex < i) && commaBetween tokens rangeIndex assignIndex
          | none => false
        if isMap then ({ h with hasMapIteration := true }, true)
        else analyzeTail tokens { h with hasArrayIteration := true } i
      else analyzeTail tokens h i
    | none => analyzeTail tokens h i

def analyzeFrom (tokens : List GoStr) (targetPath : GoStr) :
    List Nat → PipelineHints → PipelineHints
  | [], h => h
  | i :: is, h =>
    match analyzeStep tokens targetPath h i with
    | (h1, true) => h1
    | (h1, false) => analyzeFrom tokens targetPath is h1

/-- `analyzePipelineTokens`. -/
def analyzePipelineTokens (tokens : List GoStr) (targetPath : GoStr)
    (h : PipelineHints) : PipelineHints :=
  analyzeFrom tokens targetPath (List.range tokens.length) h

/-- `extractPipelineHints`. -/
def extractPipelineHints (fuel : Nat) (content path : GoStr) : PipelineHints :=
  let pipelines := findPipelines fuel content
  let targetPath := str ".Values." ++ path
  pipelines.foldl
    (fun h p => analyzePipelineTokens (tokenizePipeline p) targetPath h)
    ⟨false, false, false, false⟩

/-- `inferTypeFromHints` of the pipeline-hints parser document. -/
def inferTypeFromHints (fuel : Nat) (content path : GoStr) : GoStr :=
  if hasSub path (str "[]") then str "array"
  else
    let hints := extractPipelineHints fuel content path
    if hints.hasMapIteration || hints.hasMapOperations then str "map"
    else if hints.hasArrayIteration || hints.hasArrayOperations then str "array"
    else str "primitive"

end pipeline

/-- Claim C4: a `range` directly over `.Values.items` with no
comma-separated double binding classifies `items` as array; a `range` with
two comma-separated bound names before `:=` over `.Values.config`
classifies `config` as map; and in general, whenever the extracted hints
record map iteration (and the path carries no `[]` marker), the final
classification is map — the map hint takes precedence over any array
hint. -/
theorem C4_iteration_hint_classification :
    (pipeline.inferTypeFromHints 64
        (str "\x7b\x7b range .Values.items \x7d\x7d") (str "items") = str "array") ∧
    (pipeline.inferTypeFromHints 64
        (str "\x7b\x7b range $k, $v := .Values.config \x7d\x7d") (str "config") = str "map") ∧
    (∀ (fuel : Nat) (content path : GoStr),
      hasSub path (str "[]") = false →
      (pipeline.extractPipelineHints fuel content path).hasMapIteration = true →
      pipeline.inferTypeFromHints fuel content path = str "map") := by
  refine ⟨by decide, by decide, ?_⟩
  intro fuel content path h1 h2
  simp [pipeline.inferTypeFromHints, h1, h2]

/-- Witness for C4 at a concrete template containing both an array-style
and a map-style `range` over the same path `cfg`: the hints record map
iteration and the classification is map. -/
theorem C4_iteration_hint_classification_witness :
    hasSub (str "cfg") (str "[]") = false ∧
    (pipeline.extractPipelineHints 100
        (str "\x7b\x7b range .Values.cfg \x7d\x7d \x7b\x7b range $k, $v := .Values.cfg \x7d\x7d")
        (str "cfg")).hasMapIteration = true ∧
    pipeline.inferTypeFromHints 100
        (str "\x7b\x7b range .Values.cfg \x7d\x7d \x7b\x7b range $k, $v := .Values.cfg \x7d\x7d")
        (str "cfg") = str "map" :=
  ⟨by decide, by decide,
    C4_iteration_hint_classification.2.2 100
      (str "\x7b\x7b range .Values.cfg \x7d\x7d \x7b\x7b range $k, $v := .Values.cfg \x7d\x7d")
      (str "cfg") (by decide) (by decide)⟩

/-! ## Variable assignment and reference scanners (current parser):
`varRe`, `varRefRe`, `parseVariableAssignments`, `parseVariableReferences`. -/

namespace parser

/-- Characters of `identifier` past the first: `[a-zA-Z0-9_]`. -/
def isIdentChar (c : Char) : Bool :=
  c.isAlpha || c.isDigit || c = '_'

/-- Match `identifier` (`[a-zA-Z][a-zA-Z0-9_]*`, greedy) at the start of
`s`, returning the identifier and the remaining input. -/
def identAt (s : GoStr) : Option (GoStr × GoStr) :=
  match s with
  | c :: cs =>
    if c.isAlpha then some (c :: cs.takeWhile isIdentChar, cs.dropWhile isIdentChar)
    else none
  | [] => none

/-- The path character class of `valueBoundary`: `[a-zA-Z0-9._\[\]]`. -/
def isPathChar (c : Char) : Bool :=
  c.isAlpha || c.isDigit || c = '.' || c = '_' || c = '[' || c = ']'

/-- The lazy repetition of `valuePath` against `valueBoundary`: stop as
soon as the next character is outside the path class (or at end of input);
otherwise extend with `\.identifier` or `\[\d+\]`, failing when neither
applies.  `acc` is the path matched so far. -/
def vpLoop : Nat → GoStr → GoStr → Option (GoStr × GoStr)
  | 0, _, _ => none
  | fuel + 1, acc, rest =>
    match rest with
    | [] => some (acc, [])
    | c :: cs =>
      if ¬ isPathChar c then some (acc, c :: cs)
      else if c = '.' then
        match identAt cs with
        | some (idt, r2) => vpLoop fuel (acc ++ '.' :: idt) r2
        | none => none
      else if c = '[' then
        let ds := cs.takeWhile (fun d => d.isDigit)
        let r2 := cs.dropWhile (fun d => d.isDigit)
        match r2 with
        | ']' :: r3 =>
          if ds.isEmpty then none
          else vpLoop fuel (acc ++ '[' :: (ds ++ [']'])) r3
        | _ => none
      else none

/-- Match `valuePath` followed by `valueBoundary` at the start of `s`,
returning the path and the rest of the input with the boundary character
still in place. -/
def parseVP (s : GoStr) : Option (GoStr × GoStr) :=
  match identAt s with
  | some (idt, r1) => vpLoop (r1.length + 1) idt r1
  | none => none

/-- One attempt of `varRefRe` (`\$(identifier)\.(valuePath)valueBoundary`)
at the input after a `$`: returns variable name, field path and the input
after the consumed match (the boundary character, when present, is part of
the match). -/
def tryVarRef (s : GoStr) : Option (GoStr × GoStr × GoStr) :=
  match identAt s with
  | some (v, r1) =>
    match r1 with
    | '.' :: r2 =>
      match parseVP r2 with
      | some (f, r3) => some (v, f, r3.tail)
      | none => none
    | _ => none
  | none => none

/-- `FindAllStringSubmatch` of `varRefRe`: scan for `$`, resume after each
consumed match. -/
def findVarRefs : Nat → GoStr → List (GoStr × GoStr)
  | 0, _ => []
  | _ + 1, [] => []
  | fuel + 1, c :: cs =>
    if c = '$' then
      match tryVarRef cs with
      | some (v, f, rest) => (v, f) :: findVarRefs fuel rest
      | none => findVarRefs fuel cs
    else findVarRefs fuel cs

/-- Lookup in the `variables` map. -/
def getVar : List (GoStr × GoStr) → GoStr → Option GoStr
  | [], _ => none
  | (k0, v0) :: t, k => if k0 = k then some v0 else getVar t k

/-- Insert-or-overwrite in the `variables` map. -/
def setVar : List (GoStr × GoStr) → GoStr → GoStr → List (GoStr × GoStr)
  | [], k, v => [(k, v)]
  | (k0, v0) :: t, k, v => if k0 = k then (k, v) :: t else (k0, v0) :: setVar t k v

/-- `parseVariableReferences` (current parser): resolve each `$var.field`
occurrence through the variable table and record the joined path. -/
def parseVariableReferences (vars : List (GoStr × GoStr)) (values : Table)
    (content : GoStr) : Table :=
  (findVarRefs (content.length + 1) content).foldl
    (fun acc m =>
      let fieldPath := normalizePath m.2
      match getVar vars m.1 with
      | some basePath =>
        if fieldPath ≠ [] then addValuePathWithHints acc (basePath ++ str "." ++ fieldPath)
        else acc
      | none => acc)
    values

/-- Consume `pipelineBoundary` (`(?:\s*[|\x7d\s]|\s*-?\x7d\x7d)`) at the
start of `s`, returning the input after the consumed boundary.  The greedy
whitespace run backtracks one character into the class when needed, so any
leading whitespace satisfies the first alternative. -/
def boundaryPipe (s : GoStr) : Option GoStr :=
  let w := s.takeWhile pipeline.isWsRe
  let r := s.dropWhile pipeline.isWsRe
  if w.isEmpty then
    match r with
    | '|' :: t => some t
    | '\x7d' :: t => some t
    | '-' :: '\x7d' :: '\x7d' :: t => some t
    | _ => none
  else
    match r with
    | '|' :: t => some t
    | '\x7d' :: t => some t
    | _ => some r

/-- The lazy repetition of `valuePath` against `pipelineBoundary`. -/
def vpLoopPipe : Nat → GoStr → GoStr → Option (GoStr × GoStr)
  | 0, _, _ => none
  | fuel + 1, acc, rest =>
    match boundaryPipe rest with
    | some r => some (acc, r)
    | none =>
      match rest with
      | [] => none
      | c :: cs =>
        if c = '.' then
          match identAt cs with
          | some (idt, r2) => vpLoopPipe fuel (acc ++ '.' :: idt) r2
          | none => none
        else if c = '[' then
          let ds := cs.takeWhile (fun d => d.isDigit)
          let r2 := cs.dropWhile (fun d => d.isDigit)
          match r2 with
          | ']' :: r3 =>
            if ds.isEmpty then none
            else vpLoopPipe fuel (acc ++ '[' :: (ds ++ [']'])) r3
          | _ => none
        else none

/-- Match `valuePath` followed by `pipelineBoundary`, returning the path
and the input after the consumed boundary. -/
def parseVPPipe (s : GoStr) : Option (GoStr × GoStr) :=
  match identAt s with
  | some (idt, r1) => vpLoopPipe (r1.length + 1) idt r1
  | none => none

/-- One attempt of `varRe`
(`\x7b\x7b-?\s*\$(identifier)\s*:=\s*\.Values\.(valuePath)pipelineBoundary`)
at the start of `s`. -/
def tryVarAssign (s : GoStr) : Option (GoStr × GoStr × GoStr) :=
  match s with
  | '\x7b' :: '\x7b' :: r0 =>
    let r1 := match r0 with
      | '-' :: t => t
      | _ => r0
    let r2 := r1.dropWhile pipeline.isWsRe
    match r2 with
    | '$' :: r3 =>
      match identAt r3 with
      | some (v, r4) =>
        match r4.dropWhile pipeline.isWsRe with
        | ':' :: '=' :: r6 =>
          let r7 := r6.dropWhile pipeline.isWsRe
          if (str ".Values.").isPrefixOf r7 then
            match parseVPPipe (r7.drop 8) with
            | some (p, r9) => some (v, p, r9)
            | none => none
          else none
        | _ => none
      | none => none
    | _ => none
  | _ => none

/-- `FindAllStringSubmatch` of `varRe`. -/
def findVarAssignments : Nat → GoStr → List (GoStr × GoStr)
  | 0, _ => []
  | _ + 1, [] => []
  | fuel + 1, c :: cs =>
    match tryVarAssign (c :: cs) with
    | some (v, p, rest) => (v, p) :: findVarAssignments fuel rest
    | none => findVarAssignments fuel cs

/-- `parseVariableAssignments` (current parser): record each
`$var := .Values.path` binding, overwriting earlier bindings of the same
variable. -/
def parseVariableAssignments (vars : List (GoStr × GoStr)) (content : GoStr) :
    List (GoStr × GoStr) :=
  (findVarAssignments (content.length + 1) content).foldl
    (fun vs m =>
      let vp := normalizePath m.2
      if vp ≠ [] then setVar vs m.1 vp else vs)
    vars

end parser

/-- Claim C5: the assignment pass on `\x7b\x7b $db := .Values.database \x7d\x7d`
records the binding `db ↦ database`; whenever the variable table binds
`db` to `database`, the reference pass on an occurrence of `$db.host`
records the full path `database.host` (a leaf of unknown type) and the
prefix `database` classified as object; and when `db` has no recorded
binding the reference pass records nothing. -/
theorem C5_variable_reference_resolution :
    (parser.parseVariableAssignments [] (str "\x7b\x7b $db := .Values.database \x7d\x7d") =
      [(str "db", str "database")]) ∧
    (∀ (vars : List (GoStr × GoStr)),
      parser.getVar vars (str "db") = some (str "database") →
      parser.getV (parser.parseVariableReferences vars []
          (str "\x7b\x7b $db.host \x7d\x7d")) (str "database.host") =
        some { Path := str "database.host", Typ := str "unknown",
               Required := false, Default := none } ∧
      parser.getV (parser.parseVariableReferences vars []
          (str "\x7b\x7b $db.host \x7d\x7d")) (str "database") =
        some { Path := str "database", Typ := str "object",
               Required := false, Default := none }) ∧
    (∀ (vars : List (GoStr × GoStr)) (values : parser.Table),
      parser.getVar vars (str "db") = none →
      parser.parseVariableReferences vars values (str "\x7b\x7b $db.host \x7d\x7d") =
        values) := by
  have hm : parser.findVarRefs ((str "\x7b\x7b $db.host \x7d\x7d").length + 1)
      (str "\x7b\x7b $db.host \x7d\x7d") = [(str "db", str "host")] := by decide
  refine ⟨by decide, ?_, ?_⟩
  · intro vars h
    constructor <;>
    · simp only [parser.parseVariableReferences]
      rw [hm]
      simp only [List.foldl]
      rw [h]
      decide
  · intro vars values h
    simp only [parser.parseVariableReferences]
    rw [hm]
    simp only [List.foldl]
    rw [h]

/-- Witness for C5 at the concrete variable tables
`[(db, database)]` and `[]`. -/
theorem C5_variable_reference_resolution_witness :
    parser.getVar [(str "db", str "database")] (str "db") = some (str "database") ∧
    parser.getV (parser.parseVariableReferences [(str "db", str "database")] []
        (str "\x7b\x7b $db.host \x7d\x7d")) (str "database.host") =
      some { Path := str "database.host", Typ := str "unknown",
             Required := false, Default := none } ∧
    parser.getVar [] (str "db") = none ∧
    parser.parseVariableReferences [] [] (str "\x7b\x7b $db.host \x7d\x7d") = [] :=
  ⟨by decide,
    (C5_variable_reference_resolution.2.1 [(str "db", str "database")] (by decide)).1,
    by decide,
    C5_variable_reference_resolution.2.2 [] [] (by decide)⟩

/-! ## Chart traversal (`pkg/helm` and `ParseChartWithOptions`).

The `helm` package functions touch the operating system (`os.Stat`,
`filepath`, YAML parsing, `exec`).  Following the spec's system boundary,
those primitives are abstracted into a `HelmEnv` record (filesystem stat,
file reading, path joining, `Chart.yaml` metadata, `helm` availability);
the `helm` package logic itself — validation, dependency classification,
path resolution — is embedded from the source on top of it. -/

namespace helm

/-- `Dependency` of `Chart.yaml`. -/
structure Dependency where
  Name : GoStr
  Version : GoStr
  Repository : GoStr
  Condition : GoStr
  Tags : List GoStr

/-- Modelled from the spec: the OS-level primitives used by `pkg/helm`
and `ParseTemplateFile`.  `statExists p` is `os.Stat(p)` succeeding,
`joinPath` is `filepath.Join`, `isAbs` is `filepath.IsAbs`, `abs` is
`filepath.Abs`, `parseChartMetadata` is `ParseChartMetadata(...).Dependencies`,
`helmInPath` is `exec.LookPath("helm")` succeeding, `buildDependencies` is
`helm dependency build`, `findTemplates` is the `WalkDir` template listing,
`readFile` is `os.ReadFile`. -/
structure HelmEnv where
  statExists : GoStr → Bool
  joinPath : GoStr → GoStr → GoStr
  isAbs : GoStr → Bool
  abs : GoStr → Except GoStr GoStr
  parseChartMetadata : GoStr → Except GoStr (List Dependency)
  helmInPath : Bool
  buildDependencies : GoStr → Except GoStr Unit
  findTemplates : GoStr → Except GoStr (List GoStr)
  readFile : GoStr → Except GoStr GoStr

/-- `ValidateChartDirectory`. -/
def validateChartDirectory (env : HelmEnv) (chartPath : GoStr) : Except GoStr Unit :=
  if !(env.statExists (env.joinPath chartPath (str "Chart.yaml"))) then
    .error (str "Chart.yaml not found in " ++ chartPath)
  else if !(env.statExists (env.joinPath chartPath (str "templates"))) then
    .error (str "templates directory not found in " ++ chartPath)
  else .ok ()

/-- `Dependency.IsLocalDependency`. -/
def IsLocalDependency (d : Dependency) : Bool :=
  d.Repository.isEmpty || (str "file://").isPrefixOf d.Repository ||
    (str "./").isPrefixOf d.Repository || (str "../").isPrefixOf d.Repository

/-- `Dependency.GetLocalSubchartPath`. -/
def GetLocalSubchartPath (env : HelmEnv) (d : Dependency) (parentChartPath : GoStr) : GoStr :=
  if d.Repository.isEmpty then
    env.joinPath (env.joinPath parentChartPath (str "charts")) d.Name
  else if (str "file://").isPrefixOf d.Repository then
    let path := d.Repository.drop 7
    if env.isAbs path then path else env.joinPath parentChartPath path
  else
    env.joinPath parentChartPath d.Repository

/-- `Dependency.GetSubchartPath`. -/
def GetSubchartPath (env : HelmEnv) (d : Dependency) (parentChartPath : GoStr) : GoStr :=
  if IsLocalDependency d then GetLocalSubchartPath env d parentChartPath
  else env.joinPath (env.joinPath parentChartPath (str "charts")) d.Name

/-- `HasRemoteDependencies`. -/
def hasRemoteDependencies (env : HelmEnv) (chartPath : GoStr) : Except GoStr Bool :=
  match env.parseChartMetadata chartPath with
  | .error e => .error e
  | .ok deps => .ok (deps.any (fun d => !(IsLocalDependency d)))

/-- `FindAllSubcharts` (copies the metadata dependency list). -/
def findAllSubcharts (env : HelmEnv) (chartPath : GoStr) : Except GoStr (List Dependency) :=
  env.parseChartMetadata chartPath

/-- `EnsureHelmAvailable`. -/
def ensureHelmAvailable (env : HelmEnv) : Except GoStr Unit :=
  if env.helmInPath then .ok () else .error (str "helm not found in PATH")

end helm

namespace parser

/-- The `re` scanner of `parseDirectValueReferences`: one attempt of
`\.Values\.(valuePath)valueBoundary` at the start of `s`, returning the
captured path and the input after the consumed match. -/
def tryValuesRef (s : GoStr) : Option (GoStr × GoStr) :=
  if (str ".Values.").isPrefixOf s then
    match parseVP (s.drop 8) with
    | some (p, r3) => some (p, r3.tail)
    | none => none
  else none

/-- `FindAllStringSubmatch` of `re`. -/
def findValuesRefs : Nat → GoStr → List GoStr
  | 0, _ => []
  | _ + 1, [] => []
  | fuel + 1, c :: cs =>
    match tryValuesRef (c :: cs) with
    | some (p, rest) => p :: findValuesRefs fuel rest
    | none => findValuesRefs fuel cs

/-- `parseDirectValueReferences` (current parser). -/
def parseDirectValueReferences (values : Table) (content : GoStr) : Table :=
  (findValuesRefs (content.length + 1) content).foldl
    (fun acc m =>
      let path := normalizePath m
      if path ≠ [] then addValuePathWithHints acc path else acc)
    values

/-- `ParseTemplateFile` (current parser): read the file, skip blank
content, then run the three passes — variable assignments, direct value
references, variable references. -/
def parseTemplateFile (env : helm.HelmEnv) (st : TemplateParser) (filePath : GoStr) :
    Except GoStr TemplateParser :=
  match env.readFile filePath with
  | .error e => .error (str "failed to read template file " ++ filePath ++ str ": " ++ e)
  | .ok content =>
    if (pipeline.trimSpace content).isEmpty then .ok st
    else
      let vars1 := parseVariableAssignments st.vars content
      let values1 := parseDirectValueReferences st.values content
      let values2 := parseVariableReferences vars1 values1 content
      .ok (.mk values2 vars1 st.subcharts)

/-- The template-file loop of `ParseChartWithOptions`, stopping at the
first error. -/
def parseFiles (env : helm.HelmEnv) : TemplateParser → List GoStr → Except GoStr TemplateParser
  | st, [] => .ok st
  | st, f :: fs =>
    match parseTemplateFile env st f with
    | .error e => .error e
    | .ok st1 => parseFiles env st1 fs

/-- Insert-or-overwrite into the `subcharts` map. -/
def setSubchart : List (GoStr × TemplateParser) → GoStr → TemplateParser →
    List (GoStr × TemplateParser)
  | [], k, v => [(k, v)]
  | (k0, v0) :: t, k, v => if k0 = k then (k, v) :: t else (k0, v0) :: setSubchart t k v

/-- The dependency loop of `ParseChartWithOptions`: a dependency whose
resolved directory fails `ValidateChartDirectory` is skipped with
`continue`; a valid one is parsed by `recur` on a fresh parser and stored
under its name, a failing recursive parse aborting with a wrapped error. -/
def processDeps (env : helm.HelmEnv) (recur : GoStr → Except GoStr TemplateParser) :
    TemplateParser → GoStr → List helm.Dependency → Except GoStr TemplateParser
  | st, _, [] => .ok st
  | st, chartPath, dep :: rest =>
    let subchartPath := helm.GetSubchartPath env dep chartPath
    match helm.validateChartDirectory env subchartPath with
    | .error _ => processDeps env recur st chartPath rest
    | .ok _ =>
      match recur subchartPath with
      | .error e =>
        .error (str "failed to parse subchart " ++ dep.Name ++ str " at " ++
          subchartPath ++ str ": " ++ e)
      | .ok sub => processDeps env recur (.mk st.values st.vars (setSubchart st.subcharts dep.Name sub)) chartPath rest

/-- `ParseChartWithOptions` (current parser).  The fuel bounds the
subchart recursion depth, which the Go code leaves unbounded. -/
def parseChartWithOptions (env : helm.HelmEnv) :
    Nat → TemplateParser → GoStr → Bool → Except GoStr TemplateParser
  | 0, _, _, _ => .error (str "subchart recursion depth exhausted")
  | fuel + 1, st, chartPath, includeSubcharts =>
    match env.findTemplates chartPath with
    | .error e => .error e
    | .ok files =>
      match parseFiles env st files with
      | .error e => .error e
      | .ok st1 =>
        if includeSubcharts = false then .ok st1
        else
          match helm.hasRemoteDependencies env chartPath with
          | .error e => .error e
          | .ok hasRemote =>
            let pre : Except GoStr Unit :=
              if hasRemote then
                match helm.ensureHelmAvailable env with
                | .error e => .error e
                | .ok _ => env.buildDependencies chartPath
              else .ok ()
            match pre with
            | .error e => .error e
            | .ok _ =>
              match helm.findAllSubcharts env chartPath with
              | .error e => .error e
              | .ok deps =>
                processDeps env
                  (fun p => parseChartWithOptions env fuel (.mk [] [] []) p true)
                  st1 chartPath deps

end parser

/-- Claim C9: in the dependency loop of `ParseChartWithOptions`, a declared
dependency whose resolved directory fails chart-directory validation is
skipped silently — the loop continues as if the dependency were absent and
no child parser is created for it — while a dependency with a valid
directory is recursed into and stored under its name; in particular, when
every declared dependency fails validation the loop completes successfully
with the parser state unchanged. -/
theorem C9_optional_subchart_skipping :
    (∀ (env : helm.HelmEnv) (recur : GoStr → Except GoStr parser.TemplateParser)
       (st : parser.TemplateParser) (chartPath : GoStr) (dep : helm.Dependency)
       (rest : List helm.Dependency) (e : GoStr),
      helm.validateChartDirectory env (helm.GetSubchartPath env dep chartPath) = .error e →
      parser.processDeps env recur st chartPath (dep :: rest) =
        parser.processDeps env recur st chartPath rest) ∧
    (∀ (env : helm.HelmEnv) (recur : GoStr → Except GoStr parser.TemplateParser)
       (st : parser.TemplateParser) (chartPath : GoStr) (dep : helm.Dependency)
       (rest : List helm.Dependency) (sub : parser.TemplateParser),
      helm.validateChartDirectory env (helm.GetSubchartPath env dep chartPath) = .ok () →
      recur (helm.GetSubchartPath env dep chartPath) = .ok sub →
      parser.processDeps env recur st chartPath (dep :: rest) =
        parser.processDeps env recur
          (.mk st.values st.vars (parser.setSubchart st.subcharts dep.Name sub))
          chartPath rest) ∧
    (∀ (env : helm.HelmEnv) (recur : GoStr → Except GoStr parser.TemplateParser)
       (st : parser.TemplateParser) (chartPath : GoStr) (deps : List helm.Dependency),
      (∀ dep ∈ deps, ∃ e,
        helm.validateChartDirectory env (helm.GetSubchartPath env dep chartPath) = .error e) →
      parser.processDeps env recur st chartPath deps = .ok st) := by
  refine ⟨?_, ?_, ?_⟩
  · intro env recur st chartPath dep rest e h
    simp only [parser.processDeps]
    rw [h]
  · intro env recur st chartPath dep rest sub h hr
    simp only [parser.processDeps]
    rw [h, hr]
  · intro env recur st chartPath deps h
    induction deps with
    | nil => rfl
    | cons dep rest ih =>
      obtain ⟨e, he⟩ := h dep (List.mem_cons_self dep rest)
      simp only [parser.processDeps]
      rw [he]
      exact ih (fun d hd => h d (List.mem_cons_of_mem dep hd))

/-- Chart-tree environment for the C9 witness: one chart at `/c` whose
metadata declares two dependencies, `good` (present and valid on disk) and
`missing` (no directory). -/
def demoEnv : helm.HelmEnv where
  statExists := fun p => p == str "/c/Chart.yaml" || p == str "/c/templates" ||
    p == str "/c/charts/good/Chart.yaml" || p == str "/c/charts/good/templates"
  joinPath := fun a b => a ++ str "/" ++ b
  isAbs := fun _ => true
  abs := fun p => .ok p
  parseChartMetadata := fun p =>
    if p == str "/c" then
      .ok [{ Name := str "good", Version := str "1.0.0", Repository := [],
             Condition := [], Tags := [] },
           { Name := str "missing", Version := str "1.0.0", Repository := [],
             Condition := [], Tags := [] }]
    else .ok []
  helmInPath := false
  buildDependencies := fun _ => .ok ()
  findTemplates := fun _ => .ok []
  readFile := fun _ => .error (str "no such file")

/-- The `missing` dependency of `demoEnv`. -/
def missingDep : helm.Dependency :=
  { Name := str "missing", Version := str "1.0.0", Repository := [],
    Condition := [], Tags := [] }

/-- Parser state after the `good` dependency has been processed. -/
def st0 : parser.TemplateParser := .mk [] [] [(str "good", .mk [] [] [])]

/-- Witness for C9: under `demoEnv`, the `missing` dependency fails
validation and is skipped with the state unchanged, and the whole chart
parse succeeds with only the `good` subchart recorded. -/
theorem C9_optional_subchart_skipping_witness :
    helm.validateChartDirectory demoEnv
        (helm.GetSubchartPath demoEnv missingDep (str "/c")) =
      .error (str "Chart.yaml not found in /c/charts/missing") ∧
    parser.processDeps demoEnv
        (fun p => parser.parseChartWithOptions demoEnv 2 (.mk [] [] []) p true)
        st0 (str "/c") [missingDep] = .ok st0 ∧
    parser.parseChartWithOptions demoEnv 3 (.mk [] [] []) (str "/c") true =
      .ok (.mk [] [] [(str "good", .mk [] [] [])]) := by
  refine ⟨rfl, ?_, rfl⟩
  exact C9_optional_subchart_skipping.2.2 demoEnv
    (fun p => parser.parseChartWithOptions demoEnv 2 (.mk [] [] []) p true)
    st0 (str "/c") [missingDep]
    (fun dep hd => by
      rw [List.mem_singleton] at hd
      subst hd
      exact ⟨str "Chart.yaml not found in /c/charts/missing", rfl⟩)

/-! ## Schema generation (`pkg/schema/generator.go`).

Go's `map[string]any` JSON trees are modelled by the inductive `JVal`
(string or object of key–value fields); in-place mutation of nested maps
becomes reconstruction along the access path.  A failing type assertion
(`x.(map[string]any)` on a non-map) panics in Go and is modelled as
`none`. -/

namespace schema

inductive JVal where
  | s (v : GoStr)
  | obj (fields : List (GoStr × JVal))

/-- Map lookup. -/
def getJ : List (GoStr × JVal) → GoStr → Option JVal
  | [], _ => none
  | (k0, v0) :: t, k => if k0 = k then some v0 else getJ t k

/-- Map insert-or-overwrite. -/
def setJ : List (GoStr × JVal) → GoStr → JVal → List (GoStr × JVal)
  | [], k, v => [(k, v)]
  | (k0, v0) :: t, k, v => if k0 = k then (k, v) :: t else (k0, v0) :: setJ t k v

/-- Type assertion `.(map[string]any)`. -/
def asObj : JVal → Option (List (GoStr × JVal))
  | .obj o => some o
  | .s _ => none

/-- `getArrayItemType`. -/
def getArrayItemType (arrayType : GoStr) : GoStr :=
  if arrayType = str "array" then str "object" else str "string"

/-- `addPropertyToSchema`: the loop over the dot-separated parts of the
path becomes recursion on `parts`, writing the mutated nested maps back
along the access path.  `ty` is `valuePath.Type`. -/
def addProp : List (GoStr × JVal) → List GoStr → GoStr → Option (List (GoStr × JVal))
  | properties, [], _ => some properties
  | properties, part :: rest, ty =>
    if (str "[]").isSuffixOf part then
      let p := part.take (part.length - 2)
      let cur0 := match getJ properties p with
        | none => setJ properties p (.obj [(str "type", .s (str "array")), (str "items", .obj [])])
        | some _ => properties
      match getJ cur0 p with
      | some v =>
        match asObj v with
        | some arrayProp =>
          match getJ arrayProp (str "items") with
          | some iv =>
            match asObj iv with
            | some items =>
              if rest.isEmpty then
                some (setJ cur0 p (.obj (setJ arrayProp (str "items")
                  (.obj (setJ items (str "type") (.s (getArrayItemType ty)))))))
              else
                let items1 := match getJ items (str "type") with
                  | some _ => items
                  | none => setJ (setJ items (str "type") (.s (str "object")))
                      (str "properties") (.obj [])
                match getJ items1 (str "properties") with
                | some pv =>
                  match asObj pv with
                  | some sub =>
                    match addProp sub rest ty with
                    | some sub1 =>
                      some (setJ cur0 p (.obj (setJ arrayProp (str "items")
                        (.obj (setJ items1 (str "properties") (.obj sub1))))))
                    | none => none
                  | none => none
                | none =>
                  match addProp [] rest ty with
                  | some sub1 =>
                    some (setJ cur0 p (.obj (setJ arrayProp (str "items")
                      (.obj (setJ items1 (str "properties") (.obj sub1))))))
                  | none => none
            | none => none
          | none => none
        | none => none
      | none => none
    else
      if rest.isEmpty then
        some (setJ properties part (.obj [(str "type", .s ty)]))
      else
        match getJ properties part with
        | some existing =>
          match asObj existing with
          | some o =>
            let o1 := match getJ o (str "type") with
              | some (.s t) =>
                if t = str "object" then o else setJ o (str "type") (.s (str "object"))
              | _ => setJ o (str "type") (.s (str "object"))
            let o2 := match getJ o1 (str "properties") with
              | some _ => o1
              | none => setJ o1 (str "properties") (.obj [])
            match getJ o2 (str "properties") with
            | some pv =>
              match asObj pv with
              | some sub =>
                match addProp sub rest ty with
                | some sub1 =>
                  some (setJ properties part (.obj (setJ o2 (str "properties") (.obj sub1))))
                | none => none
              | none => none
            | none => none
          | none => addProp properties rest ty
        | none =>
          match addProp [] rest ty with
          | some sub1 =>
            some (setJ properties part (.obj [(str "type", .s (str "object")),
              (str "properties", .obj sub1)]))
          | none => none

/-- Byte-wise string order of `sort.Strings`. -/
def leGo : GoStr → GoStr → Bool
  | [], _ => true
  | _ :: _, [] => false
  | a :: as, b :: bs =>
    if a.toNat < b.toNat then true
    else if b.toNat < a.toNat then false
    else leGo as bs

def insSorted (x : GoStr) : List GoStr → List GoStr
  | [] => [x]
  | y :: ys => if leGo x y then x :: y :: ys else y :: insSorted x ys

/-- `sort.Strings` on the key list (Go map iteration feeds the keys in
arbitrary order; sorting makes the result canonical for distinct keys). -/
def sortStrings (l : List GoStr) : List GoStr := l.foldr insSorted []

/-- The path loop of `Generate`. -/
def addAll : List (GoStr × JVal) → List GoStr → parser.Table → Option (List (GoStr × JVal))
  | props, [], _ => some props
  | props, p :: ps, values =>
    match parser.getV values p with
    | some vp =>
      match addProp props (splitOnDot p) vp.Typ with
      | some props1 => addAll props1 ps values
      | none => none
    | none => none

/-- `Generate`. -/
def Generate (values : parser.Table) : Option JVal :=
  match addAll [] (sortStrings (values.map Prod.fst)) values with
  | some props =>
    some (.obj [(str "$schema", .s (str "https://json-schema.org/draft/2020-12/schema")),
                (str "type", .s (str "object")),
                (str "properties", .obj props)])
  | none => none

end schema

/-- Claim C3: the claim states that a leaf whose recorded classification is
`unknown` is emitted with the `type` key omitted.  The source refutes this:
`addPropertyToSchema` always writes `"type": valuePath.Type` for a final
path part, so for the parser table of `.Values.app.settings` (whose leaf is
classified `unknown`) the generated descriptor of `settings` carries the
literal type `unknown`.  The repository's own schema tests assert the
claimed (type-omitting) behaviour, so the source diverges from both spec
and tests. -/
theorem C3_unknown_type_key_emitted :
    schema.Generate (parser.applyOps [str "app.settings"]) =
      some (.obj [(str "$schema", .s (str "https://json-schema.org/draft/2020-12/schema")),
                  (str "type", .s (str "object")),
                  (str "properties", .obj
                    [(str "app", .obj [(str "type", .s (str "object")),
                      (str "properties", .obj
                        [(str "settings", .obj [(str "type", .s (str "unknown"))])])])])]) ∧
    parser.getV (parser.applyOps [str "app.settings"]) (str "app.settings") =
      some { Path := str "app.settings", Typ := str "unknown",
             Required := false, Default := none } :=
  ⟨rfl, by decide⟩

namespace schema

/-- The subchart loop of `GenerateChartSchemas`: a schema per subchart
parser (the Go map iteration order becomes the `subcharts` list order; the
consumers below are insensitive to it). -/
def genSubSchemas : List (GoStr × parser.TemplateParser) → Option (List (GoStr × JVal))
  | [] => some []
  | (nm, sp) :: rest =>
    match Generate sp.values, genSubSchemas rest with
    | some sj, some rs => some ((nm, sj) :: rs)
    | _, _ => none

/-- `GenerateChartSchemas`. -/
def GenerateChartSchemas (p : parser.TemplateParser) :
    Option ((GoStr × JVal) × List (GoStr × JVal)) :=
  match Generate p.values, genSubSchemas p.subcharts with
  | some m, some subs => some ((str "main", m), subs)
  | _, _ => none

/-- The ok-checked access `Schema["properties"].(map[string]any)`. -/
def schemaProps (j : JVal) : Option (List (GoStr × JVal)) :=
  match j with
  | .obj fields =>
    match getJ fields (str "properties") with
    | some (.obj ps) => some ps
    | _ => none
  | .s _ => none

/-- `len(props)` of the checked properties map, `0` when the check fails
(as in the `totalValues` computation of `chartToSchema`). -/
def propsCount (j : JVal) : Nat :=
  match schemaProps j with
  | some ps => ps.length
  | none => 0

/-- `MergeSchemas`. -/
def MergeSchemas (mainS : JVal) (subs : List (GoStr × JVal)) : JVal :=
  let props0 := match schemaProps mainS with
    | some mp => mp
    | none => []
  let props1 := subs.foldl
    (fun acc s =>
      match schemaProps s.2 with
      | some sp =>
        setJ acc s.1 (.obj [(str "type", .s (str "object")), (str "properties", .obj sp)])
      | none => acc)
    props0
  .obj [(str "$schema", .s (str "https://json-schema.org/draft/2020-12/schema")),
        (str "type", .s (str "object")),
        (str "properties", .obj props1)]

end schema

/-- `chartToSchema` (current CLI).  The outer `Option` models a Go panic
in the schema builder (`none`), the inner `Except` the returned error; the
final JSON serialization is not modelled, the schema tree is returned. -/
def chartToSchema (env : helm.HelmEnv) (fuel : Nat) (chartPath : GoStr)
    (includeSubcharts : Bool) : Option (Except GoStr schema.JVal) :=
  match env.abs chartPath with
  | .error e => some (.error (str "resolving path: " ++ e))
  | .ok absPath =>
    match helm.validateChartDirectory env absPath with
    | .error e => some (.error e)
    | .ok _ =>
      match parser.parseChartWithOptions env fuel (.mk [] [] []) absPath includeSubcharts with
      | .error e => some (.error (str "parsing chart: " ++ e))
      | .ok p =>
        match schema.GenerateChartSchemas p with
        | some (mainS, subs) =>
          let totalValues :=
            schema.propsCount mainS.2 + (subs.map (fun s => schema.propsCount s.2)).sum
          if totalValues = 0 then
            some (.error (str "no value paths found in chart " ++ absPath ++
              str " - ensure templates use .Values references"))
          else
            some (.ok (schema.MergeSchemas mainS.2 subs))
        | none => none

/-- Chart-tree environment for the C8 counterexample: chart `/c` with no
template files, one valid subchart `a` with no template files, which in
turn has one valid subchart `b` whose single template references
`.Values.x`. -/
def c8env : helm.HelmEnv where
  statExists := fun p => p == str "/c/Chart.yaml" || p == str "/c/templates" ||
    p == str "/c/charts/a/Chart.yaml" || p == str "/c/charts/a/templates" ||
    p == str "/c/charts/a/charts/b/Chart.yaml" || p == str "/c/charts/a/charts/b/templates"
  joinPath := fun a b => a ++ str "/" ++ b
  isAbs := fun _ => true
  abs := fun p => .ok p
  parseChartMetadata := fun p =>
    if p == str "/c" then
      .ok [{ Name := str "a", Version := str "1.0.0", Repository := [],
             Condition := [], Tags := [] }]
    else if p == str "/c/charts/a" then
      .ok [{ Name := str "b", Version := str "1.0.0", Repository := [],
             Condition := [], Tags := [] }]
    else .ok []
  helmInPath := false
  buildDependencies := fun _ => .ok ()
  findTemplates := fun p =>
    if p == str "/c/charts/a/charts/b" then .ok [str "/f"] else .ok []
  readFile := fun p =>
    if p == str "/f" then .ok (str "\x7b\x7b .Values.x \x7d\x7d")
    else .error (str "no such file")

/-- The parse tree of `/c` under `c8env`: the only discovered value path
lives in the grandchild subchart `b`. -/
def c8tree : parser.TemplateParser :=
  .mk [] []
    [(str "a", .mk [] []
      [(str "b", .mk
        [(str "x", { Path := str "x", Typ := str "unknown",
                     Required := false, Default := none })] [] [])])]

/-- Counterexample to claim C8 as stated: under `c8env` the recursive
parse of `/c` succeeds and discovers the value path `x` in the grandchild
subchart (so the tree-wide aggregate is non-empty), yet `chartToSchema`
raises the empty-result error, because `totalValues` counts only the
top-level properties of the main chart and of its direct subcharts. -/
theorem C8_counterexample :
    parser.parseChartWithOptions c8env 5 (.mk [] [] []) (str "/c") true = .ok c8tree ∧
    parser.getAllValues c8tree ≠ [] ∧
    chartToSchema c8env 5 (str "/c") true =
      some (.error (str "no value paths found in chart /c - ensure templates use .Values references")) :=
  ⟨rfl, by decide, rfl⟩

namespace schema

theorem setJ_ne_nil (l : List (GoStr × JVal)) (k : GoStr) (v : JVal) :
    setJ l k v ≠ [] := by
  cases l with
  | nil => simp [setJ]
  | cons e t =>
    obtain ⟨k0, v0⟩ := e
    dsimp [setJ]
    split <;> simp

theorem getJ_some_ne_nil {l : List (GoStr × JVal)} {k : GoStr} {v : JVal}
    (h : getJ l k = some v) : l ≠ [] := by
  intro he
  subst he
  simp [getJ] at h

/-- A successful `addPropertyToSchema` step never shrinks the property map
to empty: with a non-empty part list the result is non-empty, and with an
empty part list the map is returned unchanged. -/
theorem addProp_ne : ∀ (parts : List GoStr) (props : List (GoStr × JVal))
    (ty : GoStr) (r : List (GoStr × JVal)),
    addProp props parts ty = some r → (parts = [] → props ≠ []) → r ≠ [] := by
  intro parts
  induction parts with
  | nil =>
    intro props ty r h hp
    simp only [addProp, Option.some.injEq] at h
    subst h
    exact hp rfl
  | cons part rest ih =>
    intro props ty r h _
    simp only [addProp] at h
    repeat' split at h
    all_goals
      first
      | (exact Option.noConfusion h)
      | (simp only [Option.some.injEq] at h; subst h; exact setJ_ne_nil _ _ _)
      | (exact ih _ _ _ h (fun _ => getJ_some_ne_nil (by assumption)))

theorem addAll_preserve : ∀ (ps : List GoStr) (props : List (GoStr × JVal))
    (values : parser.Table) (r : List (GoStr × JVal)),
    addAll props ps values = some r → props ≠ [] → r ≠ [] := by
  intro ps
  induction ps with
  | nil =>
    intro props values r h hp
    simp only [addAll, Option.some.injEq] at h
    subst h
    exact hp
  | cons p ps ih =>
    intro props values r h hp
    simp only [addAll] at h
    repeat' split at h
    all_goals
      first
      | (exact Option.noConfusion h)
      | (exact ih _ _ _ h (addProp_ne _ _ _ _ (by assumption) (fun _ => hp)))

theorem addAll_first (p : GoStr) (ps : List GoStr) (values : parser.Table)
    (r : List (GoStr × JVal)) (h : addAll [] (p :: ps) values = some r) : r ≠ [] := by
  simp only [addAll] at h
  repeat' split at h
  all_goals
    first
    | (exact Option.noConfusion h)
    | (exact addAll_preserve _ _ _ _ h
        (addProp_ne _ _ _ _ (by assumption) (fun hsp => absurd hsp (splitOnDot_ne_nil p))))

theorem insSorted_ne_nil (x : GoStr) (l : List GoStr) : insSorted x l ≠ [] := by
  cases l with
  | nil => simp [insSorted]
  | cons y ys =>
    dsimp [insSorted]
    split <;> simp

theorem sortStrings_eq_nil (l : List GoStr) : sortStrings l = [] ↔ l = [] := by
  cases l with
  | nil => simp [sortStrings]
  | cons a t =>
    simp only [sortStrings, List.foldr]
    constructor
    · intro h
      exact absurd h (insSorted_ne_nil a _)
    · intro h
      exact absurd h (by simp)

/-- The properties map of a generated schema is empty exactly when the
value-path table was empty. -/
theorem Generate_count (t : parser.Table) (J : JVal) (h : Generate t = some J) :
    (propsCount J = 0 ↔ t = []) := by
  simp only [Generate] at h
  split at h
  case h_2 => exact Option.noConfusion h
  case h_1 props heq =>
    simp only [Option.some.injEq] at h
    subst h
    have hpc : propsCount (JVal.obj
        [(str "$schema", .s (str "https://json-schema.org/draft/2020-12/schema")),
         (str "type", .s (str "object")),
         (str "properties", .obj props)]) = props.length := rfl
    rw [hpc]
    constructor
    · intro hlen
      by_contra ht
      match hl : t with
      | [] => exact ht rfl
      | e :: t' =>
        have hsort : sortStrings (((e :: t').map Prod.fst)) ≠ [] := by
          intro hs
          rw [sortStrings_eq_nil] at hs
          simp at hs
        match hs : sortStrings (((e :: t').map Prod.fst)) with
        | [] => exact hsort hs
        | p :: ps =>
          rw [hs] at heq
          exact addAll_first p ps _ props heq (List.length_eq_zero.mp hlen)
    · intro ht
      subst ht
      have : sortStrings (([] : parser.Table).map Prod.fst) = [] := rfl
      rw [this] at heq
      simp only [addAll, Option.some.injEq] at heq
      subst heq
      rfl

theorem genSub_count : ∀ (cs : List (GoStr × parser.TemplateParser))
    (subs : List (GoStr × JVal)), genSubSchemas cs = some subs →
    (((subs.map fun s => propsCount s.2).sum = 0) ↔ ∀ c ∈ cs, c.2.values = []) := by
  intro cs
  induction cs with
  | nil =>
    intro subs h
    simp only [genSubSchemas, Option.some.injEq] at h
    subst h
    simp
  | cons c cs ih =>
    obtain ⟨nm, sp⟩ := c
    intro subs h
    simp only [genSubSchemas] at h
    split at h
    case h_2 => exact Option.noConfusion h
    case h_1 sj rs heq1 heq2 =>
      simp only [Option.some.injEq] at h
      subst h
      simp only [List.map_cons, List.sum_cons, List.forall_mem_cons, Nat.add_eq_zero]
      exact and_congr (Generate_count sp.values sj heq1) (ih rs heq2)

end schema

/-- Claim C8 (amended): with path resolution, chart validation and the
recursive parse succeeding (and the schema builder not panicking), the run
reports the distinct empty-result error — instead of emitting a schema —
exactly when the main chart's own table and the own table of every DIRECT
subchart are empty; otherwise the merged schema is returned and no
empty-result error is raised.  As stated the claim is false: `totalValues`
in `chartToSchema` counts only main-chart and direct-subchart top-level
properties, so a chart whose only value paths live deeper in the tree
still triggers the error (see the counterexample). -/
theorem C8_empty_result_error (env : helm.HelmEnv) (fuel : Nat)
    (chartPath absPath : GoStr) (p : parser.TemplateParser) (mainS : schema.JVal)
    (subs : List (GoStr × schema.JVal))
    (h1 : env.abs chartPath = .ok absPath)
    (h2 : helm.validateChartDirectory env absPath = .ok ())
    (h3 : parser.parseChartWithOptions env fuel (.mk [] [] []) absPath true = .ok p)
    (h4 : schema.Generate p.values = some mainS)
    (h5 : schema.genSubSchemas p.subcharts = some subs) :
    (chartToSchema env fuel chartPath true =
        some (.error (str "no value paths found in chart " ++ absPath ++
          str " - ensure templates use .Values references")) ↔
      (p.values = [] ∧ ∀ c ∈ p.subcharts, c.2.values = [])) ∧
    (¬(p.values = [] ∧ ∀ c ∈ p.subcharts, c.2.values = []) →
      chartToSchema env fuel chartPath true =
        some (.ok (schema.MergeSchemas mainS subs))) := by
  have hkey : chartToSchema env fuel chartPath true =
      (if schema.propsCount mainS + (subs.map (fun s => schema.propsCount s.2)).sum = 0 then
        some (.error (str "no value paths found in chart " ++ absPath ++
          str " - ensure templates use .Values references"))
      else some (.ok (schema.MergeSchemas mainS subs))) := by
    simp only [chartToSchema]
    rw [h1]
    dsimp only
    rw [h2]
    dsimp only
    rw [h3]
    dsimp only
    simp only [schema.GenerateChartSchemas]
    rw [h4, h5]
  rw [hkey]
  have hiff1 : schema.propsCount mainS = 0 ↔ p.values = [] :=
    schema.Generate_count _ _ h4
  have hiff2 : ((subs.map (fun s => schema.propsCount s.2)).sum = 0) ↔
      ∀ c ∈ p.subcharts, c.2.values = [] :=
    schema.genSub_count _ _ h5
  by_cases hc :
    schema.propsCount mainS + (subs.map (fun s => schema.propsCount s.2)).sum = 0
  · rw [if_pos hc]
    rw [Nat.add_eq_zero] at hc
    refine ⟨⟨fun _ => ⟨hiff1.mp hc.1, hiff2.mp hc.2⟩, fun _ => rfl⟩, ?_⟩
    intro hn
    exact absurd ⟨hiff1.mp hc.1, hiff2.mp hc.2⟩ hn
  · rw [if_neg hc]
    refine ⟨⟨fun he => absurd he (by simp), ?_⟩, fun _ => rfl⟩
    intro hemp
    exact absurd (Nat.add_eq_zero.mpr ⟨hiff1.mpr hemp.1, hiff2.mpr hemp.2⟩) hc

/-- Environment for the C8 witness: a single valid chart at `/e` with no
template files and no dependencies. -/
def c8emptyEnv : helm.HelmEnv where
  statExists := fun p => p == str "/e/Chart.yaml" || p == str "/e/templates"
  joinPath := fun a b => a ++ str "/" ++ b
  isAbs := fun _ => true
  abs := fun p => .ok p
  parseChartMetadata := fun _ => .ok []
  helmInPath := false
  buildDependencies := fun _ => .ok ()
  findTemplates := fun _ => .ok []
  readFile := fun _ => .error (str "no such file")

/-- The schema generated from an empty value-path table. -/
def J0 : schema.JVal :=
  .obj [(str "$schema", .s (str "https://json-schema.org/draft/2020-12/schema")),
        (str "type", .s (str "object")),
        (str "properties", .obj [])]

/-- Witness for the amended C8 theorem: for the empty chart `/e`, every
hypothesis holds by evaluation and the run reports the empty-result
error. -/
theorem C8_empty_result_error_witness :
    c8emptyEnv.abs (str "/e") = .ok (str "/e") ∧
    helm.validateChartDirectory c8emptyEnv (str "/e") = .ok () ∧
    parser.parseChartWithOptions c8emptyEnv 1 (.mk [] [] []) (str "/e") true =
      .ok (.mk [] [] []) ∧
    schema.Generate (parser.TemplateParser.mk [] [] []).values = some J0 ∧
    chartToSchema c8emptyEnv 1 (str "/e") true =
      some (.error (str "no value paths found in chart " ++ str "/e" ++
        str " - ensure templates use .Values references")) := by
  refine ⟨rfl, rfl, rfl, rfl, ?_⟩
  exact (C8_empty_result_error c8emptyEnv 1 (str "/e") (str "/e") (.mk [] [] []) J0 []
    rfl rfl rfl rfl rfl).1.mpr ⟨rfl, fun c hc => absurd hc (List.not_mem_nil c)⟩
